import Mathlib

/-!
Verification of the OpenRecords retrieval pipeline
(`backend/utils/{chunking,encryption,vectordb,retrieval}.py` and
`backend/routers/documents.py`) against its natural-language specification.

Python floats are modelled as rationals (`ℚ`), byte strings and token
sequences as `List ℕ`, Python's stable `list.sort` as a stable insertion
sort (stable sorts agree on every input), SQLite tables as row lists in
insertion order, and external collaborators (the `tiktoken` tokenizer,
the `re` regex engine, `numpy` square roots, the Fernet cipher, the
embedding gateway) as explicit function parameters.
-/

namespace OpenRecords

/-! ## Stable sort (model of Python `list.sort`) -/

/-- Stable insertion of `x` into `l`: `x` goes before the first element it
compares `le` to, so elements with equal keys keep their original order —
the same contract as Python's stable sort. -/
def sinsert (le : α → α → Bool) (x : α) : List α → List α
  | [] => [x]
  | y :: ys => if le x y then x :: y :: ys else y :: sinsert le x ys

/-- Stable insertion sort; for a total, transitive boolean preorder this is
the unique stable sort, hence the same function Python's `list.sort` computes. -/
def ssort (le : α → α → Bool) : List α → List α
  | [] => []
  | x :: xs => sinsert le x (ssort le xs)

theorem sinsert_perm (le : α → α → Bool) (x : α) (l : List α) :
    List.Perm (sinsert le x l) (x :: l) := by
  induction l with
  | nil => simp [sinsert]
  | cons y ys ih =>
    simp only [sinsert]
    split
    · exact List.Perm.refl _
    · exact ((ih.cons y).trans (List.Perm.swap x y ys))

theorem ssort_perm (le : α → α → Bool) (l : List α) :
    List.Perm (ssort le l) l := by
  induction l with
  | nil => simp [ssort]
  | cons x xs ih => exact (sinsert_perm le x (ssort le xs)).trans (ih.cons x)

theorem mem_ssort {le : α → α → Bool} {l : List α} {a : α} :
    a ∈ ssort le l ↔ a ∈ l :=
  (ssort_perm le l).mem_iff

theorem length_ssort (le : α → α → Bool) (l : List α) :
    (ssort le l).length = l.length :=
  (ssort_perm le l).length_eq

theorem sinsert_pairwise {le : α → α → Bool}
    (htot : ∀ a b, le a b = true ∨ le b a = true)
    (htrans : ∀ a b c, le a b = true → le b c = true → le a c = true)
    {x : α} {l : List α}
    (hl : l.Pairwise (fun a b => le a b = true)) :
    (sinsert le x l).Pairwise (fun a b => le a b = true) := by
  induction l with
  | nil => simp [sinsert]
  | cons y ys ih =>
    simp only [sinsert]
    rcases List.pairwise_cons.1 hl with ⟨hy, hys⟩
    split
    · rename_i hxy
      refine List.pairwise_cons.2 ⟨?_, hl⟩
      intro b hb
      rcases List.mem_cons.1 hb with rfl | hb
      · exact hxy
      · exact htrans x y b hxy (hy b hb)
    · rename_i hxy
      refine List.pairwise_cons.2 ⟨?_, ih hys⟩
      intro b hb
      rcases List.mem_cons.1 ((sinsert_perm le x ys).mem_iff.1 hb) with rfl | hby
      · rcases htot y b with h | h
        · exact h
        · exact absurd h (by simpa using hxy)
      · exact hy b hby

theorem ssort_pairwise {le : α → α → Bool}
    (htot : ∀ a b, le a b = true ∨ le b a = true)
    (htrans : ∀ a b c, le a b = true → le b c = true → le a c = true)
    (l : List α) :
    (ssort le l).Pairwise (fun a b => le a b = true) := by
  induction l with
  | nil => simp [ssort]
  | cons x xs ih => exact sinsert_pairwise htot htrans ih

/-! ## Vector store (`backend/utils/vectordb.py`)

One SQLite row of the `vectors` table (`VECTOR_DB_SCHEMA`): `id` is the
primary key, `record_id` the collection, the embedding a float vector,
`metadata` the stored JSON string. The store is the row list in rowid
(insertion) order; `INSERT OR REPLACE` deletes the conflicting row and
appends the new one with a fresh rowid. -/

structure Row where
  id : String
  record_id : String
  embedding : List ℚ
  document : String
  metadata : String
deriving DecidableEq

/-- One result dict of `query_vectors`: keys id, distance, document, metadata. -/
structure Hit where
  id : String
  distance : ℚ
  document : String
  metadata : String
deriving DecidableEq

/-- `np.dot` on equal-length vectors. -/
def dotQ (a b : List ℚ) : ℚ := (List.zipWith (· * ·) a b).sum

/-- `_cosine_similarity`: truncate both vectors to the shorter length,
return 0 on empty truncation or a zero norm, else the normalised dot
product. `rt` models `np.linalg.norm`'s square root (external `numpy`). -/
def cosineSimilarity (rt : ℚ → ℚ) (a b : List ℚ) : ℚ :=
  let min_len := min a.length b.length
  if min_len = 0 then 0
  else
    let a1 := a.take min_len
    let b1 := b.take min_len
    let dot := dotQ a1 b1
    let norm_a := rt (dotQ a1 a1)
    let norm_b := rt (dotQ b1 b1)
    if norm_a = 0 ∨ norm_b = 0 then 0
    else dot / (norm_a * norm_b)

/-- `query_vectors`: select the rows of `record_id`, score each by
`distance = 1 - cosine_similarity`, stable-sort ascending by distance
(`scored.sort(key=lambda x: x[0])`), keep `top_k`. -/
def queryVectors (rt : ℚ → ℚ) (store : List Row) (record_id : String)
    (query_embedding : List ℚ) (top_k : ℕ) : List Hit :=
  let rows := store.filter (fun r => r.record_id == record_id)
  if rows = [] then []
  else
    let scored := rows.map (fun r =>
      let sim := cosineSimilarity rt query_embedding r.embedding
      let distance := 1 - sim
      (distance, Hit.mk r.id distance r.document r.metadata))
    ((ssort (fun x y => decide (x.1 ≤ y.1)) scored).take top_k).map (·.2)

/-- `delete_collection`: `DELETE FROM vectors WHERE record_id = ?`. -/
def deleteCollection (store : List Row) (record_id : String) : List Row :=
  store.filter (fun r => !(r.record_id == record_id))

/-- `collection_count`: `SELECT COUNT(*) ... WHERE record_id = ?`. -/
def collectionCount (store : List Row) (record_id : String) : ℕ :=
  (store.filter (fun r => r.record_id == record_id)).length

/-- `INSERT OR REPLACE`: drop any row with the same primary key `id`,
append the new row (fresh rowid). -/
def upsertRow (store : List Row) (row : Row) : List Row :=
  store.filter (fun r => !(r.id == row.id)) ++ [row]

/-- The per-id loop of `add_vectors`; `embeddings[i]` and `metas[i]` raise
IndexError (`none`) when out of range, `documents[i] if i < len(documents)
else ""` defaults to the empty string. -/
def addVectorsGo (record_id : String) (embeddings : List (List ℚ))
    (documents : List String) (metas : List String) :
    ℕ → List String → List Row → Option (List Row)
  | _, [], store => some store
  | i, vid :: rest, store =>
    match embeddings[i]?, metas[i]? with
    | some emb, some meta =>
      let doc := documents.getD i ""
      addVectorsGo record_id embeddings documents metas (i + 1) rest
        (upsertRow store (Row.mk vid record_id emb doc meta))
    | _, _ => none

/-- `add_vectors`: no-op on empty ids; `metadatas or [{}]*len(ids)` falls
back to default metadata when `metadatas` is `None` or the empty list. -/
def addVectors (store : List Row) (record_id : String) (ids : List String)
    (embeddings : List (List ℚ)) (documents : List String)
    (metadatas : Option (List String)) : Option (List Row) :=
  if ids = [] then some store
  else
    let metas := match metadatas with
      | some m => if m = [] then List.replicate ids.length "\x7b\x7d" else m
      | none => List.replicate ids.length "\x7b\x7d"
    addVectorsGo record_id embeddings documents metas 0 ids store

/-- Every hit of `query_vectors` comes from a stored row of the queried
collection and carries that row's id. -/
theorem queryVectors_mem (rt : ℚ → ℚ) (store : List Row) (cid : String)
    (q : List ℚ) (top_k : ℕ) :
    ∀ hit ∈ queryVectors rt store cid q top_k,
      ∃ row ∈ store, row.id = hit.id ∧ row.record_id = cid := by
  intro hit hmem
  unfold queryVectors at hmem
  by_cases hrows : store.filter (fun r => r.record_id == cid) = []
  · simp [hrows] at hmem
  · simp only [if_neg hrows] at hmem
    rcases List.mem_map.1 hmem with ⟨p, hp, hph⟩
    have hp1 : p ∈ ssort (fun x y => decide (x.1 ≤ y.1))
        ((store.filter (fun r => r.record_id == cid)).map (fun r =>
          let sim := cosineSimilarity rt q r.embedding
          let distance := 1 - sim
          (distance, Hit.mk r.id distance r.document r.metadata))) :=
      (List.take_subset _ _) hp
    have hp2 := mem_ssort.1 hp1
    rcases List.mem_map.1 hp2 with ⟨r, hr, hrp⟩
    rcases List.mem_filter.1 hr with ⟨hrstore, hrcid⟩
    refine ⟨r, hrstore, ?_, by simpa using hrcid⟩
    rw [← hph, ← hrp]

/-- C10: `_cosine_similarity` is total on every pair of vectors — it
returns 0 when the common truncated length is zero or a truncated vector
has zero norm, and in the remaining branch it divides by a provably
nonzero denominator, so no division by zero is reachable. -/
theorem cosine_similarity_total_c10 (rt : ℚ → ℚ) (hz : rt 0 = 0) (a b : List ℚ) :
    (min a.length b.length = 0 → cosineSimilarity rt a b = 0)
  ∧ (dotQ (a.take (min a.length b.length)) (a.take (min a.length b.length)) = 0 →
      cosineSimilarity rt a b = 0)
  ∧ (dotQ (b.take (min a.length b.length)) (b.take (min a.length b.length)) = 0 →
      cosineSimilarity rt a b = 0)
  ∧ (min a.length b.length ≠ 0 →
      rt (dotQ (a.take (min a.length b.length)) (a.take (min a.length b.length))) ≠ 0 →
      rt (dotQ (b.take (min a.length b.length)) (b.take (min a.length b.length))) ≠ 0 →
      rt (dotQ (a.take (min a.length b.length)) (a.take (min a.length b.length)))
        * rt (dotQ (b.take (min a.length b.length)) (b.take (min a.length b.length))) ≠ 0
      ∧ cosineSimilarity rt a b
          = dotQ (a.take (min a.length b.length)) (b.take (min a.length b.length))
            / (rt (dotQ (a.take (min a.length b.length)) (a.take (min a.length b.length)))
               * rt (dotQ (b.take (min a.length b.length)) (b.take (min a.length b.length))))) := by
  refine ⟨?_, ?_, ?_, ?_⟩
  · intro h
    simp [cosineSimilarity, h]
  · intro h
    by_cases hm : min a.length b.length = 0
    · simp [cosineSimilarity, hm]
    · simp [cosineSimilarity, hm, h, hz]
  · intro h
    by_cases hm : min a.length b.length = 0
    · simp [cosineSimilarity, hm]
    · simp [cosineSimilarity, hm, h, hz]
  · intro hm hna hnb
    refine ⟨mul_ne_zero hna hnb, ?_⟩
    simp only [cosineSimilarity, if_neg hm]
    rw [if_neg]
    push_neg
    exact ⟨hna, hnb⟩

/-- Witness for C10 at concrete degenerate inputs. -/
theorem cosine_similarity_total_c10_witness :
    (fun q : ℚ => q) 0 = 0
    ∧ cosineSimilarity (fun q : ℚ => q) [] [(1 : ℚ)] = 0
    ∧ cosineSimilarity (fun q : ℚ => q) [(0 : ℚ)] [(1 : ℚ), 2] = 0 := by
  refine ⟨rfl, ?_, ?_⟩
  · exact (cosine_similarity_total_c10 (fun q : ℚ => q) rfl [] [(1 : ℚ)]).1 (by decide)
  · exact (cosine_similarity_total_c10 (fun q : ℚ => q) rfl [(0 : ℚ)] [(1 : ℚ), 2]).2.1
      (by simp [dotQ])

/-- C2: collection isolation — every hit of `query_vectors(cid, ...)` is
the id of a stored row of collection `cid`, and `delete_collection(cid)`
removes exactly the rows of `cid`, leaving every other collection's rows
(and their order) unchanged. -/
theorem collection_isolation_c2 (rt : ℚ → ℚ) (store : List Row) (cid : String)
    (q : List ℚ) (top_k : ℕ)
    (hpop : ∃ r1 ∈ store, ∃ r2 ∈ store, r1.record_id ≠ r2.record_id) :
    (∀ hit ∈ queryVectors rt store cid q top_k,
      ∃ row ∈ store, row.id = hit.id ∧ row.record_id = cid)
  ∧ (∀ row : Row, row ∈ deleteCollection store cid ↔
      row ∈ store ∧ row.record_id ≠ cid)
  ∧ (∀ d : String, d ≠ cid →
      (deleteCollection store cid).filter (fun r => r.record_id == d)
        = store.filter (fun r => r.record_id == d)) := by
  refine ⟨queryVectors_mem rt store cid q top_k, ?_, ?_⟩
  · intro row
    simp [deleteCollection, List.mem_filter]
  · intro d hd
    unfold deleteCollection
    rw [List.filter_filter]
    apply List.filter_congr
    intro r _
    by_cases hrd : r.record_id = d
    · simp [hrd, hd]
    · simp [hrd]

/-- Witness for C2 on a two-collection store. -/
theorem collection_isolation_c2_witness :
    (∃ r1 ∈ [Row.mk "c1" "A" [1] "t1" "m1", Row.mk "c2" "B" [2] "t2" "m2"],
       ∃ r2 ∈ [Row.mk "c1" "A" [1] "t1" "m1", Row.mk "c2" "B" [2] "t2" "m2"],
         r1.record_id ≠ r2.record_id)
    ∧ (∀ hit ∈ queryVectors (fun q : ℚ => q)
          [Row.mk "c1" "A" [1] "t1" "m1", Row.mk "c2" "B" [2] "t2" "m2"] "A" [1] 5,
        ∃ row ∈ [Row.mk "c1" "A" [1] "t1" "m1", Row.mk "c2" "B" [2] "t2" "m2"],
          row.id = hit.id ∧ row.record_id = "A") := by
  refine ⟨by decide, ?_⟩
  exact (collection_isolation_c2 (fun q : ℚ => q)
    [Row.mk "c1" "A" [1] "t1" "m1", Row.mk "c2" "B" [2] "t2" "m2"] "A" [1] 5
    (by decide)).1

/-- A list all of whose members survive the filter is unchanged by it. -/
theorem filter_eq_self_of_forall {p : α → Bool} {l : List α}
    (h : ∀ a ∈ l, p a = true) : l.filter p = l := by
  induction l with
  | nil => rfl
  | cons x xs ih =>
    rw [List.filter_cons, if_pos (h x (List.mem_cons_self x xs))]
    rw [ih (fun a ha => h a (List.mem_cons_of_mem x ha))]

theorem collectionCount_append (s t : List Row) (cid : String) :
    collectionCount (s ++ t) cid = collectionCount s cid + collectionCount t cid := by
  simp [collectionCount, List.filter_append]

theorem collectionCount_cons (r : Row) (s : List Row) (cid : String) :
    collectionCount (r :: s) cid
      = (if r.record_id = cid then 1 else 0) + collectionCount s cid := by
  simp only [collectionCount, List.filter_cons]
  by_cases h : r.record_id = cid
  · simp [h]
    omega
  · simp [h]

/-- C9: vector-store ids are globally unique; upserting an id under a new
collection `B` replaces the old collection's row, so afterwards the id
belongs to `B`, is absent from the old collection's queries, the old
collection's count drops by one and `B`'s count grows by one. -/
theorem upsert_moves_row_c9 (store : List Row) (row0 : Row) (B : String)
    (e : List ℚ) (d : String)
    (hnd : (store.map Row.id).Nodup) (hmem : row0 ∈ store)
    (hAB : row0.record_id ≠ B) :
    ∃ s', addVectors store B [row0.id] [e] [d] none = some s'
      ∧ (s'.map Row.id).Nodup
      ∧ (∀ r ∈ s', r.id = row0.id → r.record_id = B)
      ∧ (∃ r ∈ s', r.id = row0.id ∧ r.record_id = B)
      ∧ collectionCount s' row0.record_id + 1 = collectionCount store row0.record_id
      ∧ collectionCount s' B = collectionCount store B + 1
      ∧ (∀ (rt : ℚ → ℚ) (q : List ℚ) (k : ℕ),
          ∀ hit ∈ queryVectors rt s' row0.record_id q k, hit.id ≠ row0.id) := by
  rcases List.append_of_mem hmem with ⟨l1, l2, rfl⟩
  rw [List.map_append, List.map_cons] at hnd
  have hdisj := List.disjoint_of_nodup_append hnd
  have hnd2 := List.Nodup.of_append_right hnd
  have hid1 : ∀ r ∈ l1, r.id ≠ row0.id := by
    intro r hr heq
    exact hdisj (List.mem_map_of_mem Row.id hr) (heq ▸ List.mem_cons_self _ _)
  have hid2 : ∀ r ∈ l2, r.id ≠ row0.id := by
    intro r hr heq
    exact (List.nodup_cons.1 hnd2).1 (heq ▸ List.mem_map_of_mem Row.id hr)
  have h12 : ((l1 ++ l2).map Row.id).Nodup := by
    rw [List.map_append]
    have hsub : (l1.map Row.id ++ l2.map Row.id).Sublist
        (l1.map Row.id ++ row0.id :: l2.map Row.id) :=
      List.Sublist.append_left (List.sublist_cons_self _ _) _
    exact hsub.nodup hnd
  have hs' : addVectors (l1 ++ row0 :: l2) B [row0.id] [e] [d] none
      = some ((l1 ++ l2) ++ [Row.mk row0.id B e d "\x7b\x7d"]) := by
    have h1 : (l1 ++ row0 :: l2).filter (fun r => !(r.id == row0.id)) = l1 ++ l2 := by
      rw [List.filter_append, List.filter_cons]
      rw [if_neg (by simp)]
      rw [filter_eq_self_of_forall (fun a ha => by simpa using hid1 a ha),
          filter_eq_self_of_forall (fun a ha => by simpa using hid2 a ha)]
    simp only [addVectors, if_neg (by simp : ¬([row0.id] = ([] : List String))),
      List.replicate, addVectorsGo, upsertRow]
    simp only [List.getElem?_cons_zero, Option.some.injEq, List.getD, List.get?,
      Option.getD_some]
    rw [h1]
  refine ⟨(l1 ++ l2) ++ [Row.mk row0.id B e d "\x7b\x7d"], hs', ?_, ?_, ?_, ?_, ?_, ?_⟩
  · rw [List.map_append]
    rw [List.nodup_append]
    refine ⟨h12, List.nodup_singleton _, ?_⟩
    intro a ha
    simp only [List.map_cons, List.map_nil, List.mem_singleton]
    intro hb
    subst hb
    rcases List.mem_map.1 ha with ⟨r, hr, hrid⟩
    rcases List.mem_append.1 hr with h | h
    · exact hid1 r h (by simpa using hrid)
    · exact hid2 r h (by simpa using hrid)
  · intro r hr hrid
    rcases List.mem_append.1 hr with h | h
    · rcases List.mem_append.1 h with h' | h'
      · exact absurd hrid (hid1 r h')
      · exact absurd hrid (hid2 r h')
    · rw [List.mem_singleton.1 h]
  · exact ⟨Row.mk row0.id B e d "\x7b\x7d", by simp, rfl, rfl⟩
  · rw [collectionCount_append, collectionCount_append, collectionCount_append,
      collectionCount_cons, collectionCount_cons]
    have hB : ¬ ((Row.mk row0.id B e d "\x7b\x7d").record_id = row0.record_id) :=
      fun h => hAB h.symm
    rw [if_neg hB, if_pos rfl]
    simp only [collectionCount, List.filter_nil, List.length_nil]
    omega
  · rw [collectionCount_append, collectionCount_append, collectionCount_append,
      collectionCount_cons, collectionCount_cons]
    rw [if_pos (rfl : (Row.mk row0.id B e d "\x7b\x7d").record_id = B), if_neg hAB]
    simp only [collectionCount, List.filter_nil, List.length_nil]
    omega
  · intro rt q k hit hhit
    rcases queryVectors_mem rt ((l1 ++ l2) ++ [Row.mk row0.id B e d "\x7b\x7d"])
      row0.record_id q k hit hhit with ⟨row, hrow, hrid, hrrec⟩
    intro hbad
    rcases List.mem_append.1 hrow with h | h
    · rcases List.mem_append.1 h with h' | h'
      · exact hid1 row h' (hrid.trans hbad)
      · exact hid2 row h' (hrid.trans hbad)
    · rw [List.mem_singleton.1 h] at hrrec
      exact hAB hrrec.symm

/-- Witness for C9: upserting id `c1` from collection `A` into `B`. -/
theorem upsert_moves_row_c9_witness :
    ([Row.mk "c1" "A" [1] "t1" "m1", Row.mk "c2" "B" [2] "t2" "m2"].map Row.id).Nodup
    ∧ Row.mk "c1" "A" [1] "t1" "m1"
        ∈ [Row.mk "c1" "A" [1] "t1" "m1", Row.mk "c2" "B" [2] "t2" "m2"]
    ∧ (Row.mk "c1" "A" [1] "t1" "m1").record_id ≠ "B"
    ∧ ∃ s', addVectors [Row.mk "c1" "A" [1] "t1" "m1", Row.mk "c2" "B" [2] "t2" "m2"]
          "B" [(Row.mk "c1" "A" [1] "t1" "m1").id] [[(3 : ℚ)]] ["t3"] none = some s'
        ∧ (s'.map Row.id).Nodup
        ∧ (∀ r ∈ s', r.id = (Row.mk "c1" "A" [1] "t1" "m1").id → r.record_id = "B")
        ∧ (∃ r ∈ s', r.id = (Row.mk "c1" "A" [1] "t1" "m1").id ∧ r.record_id = "B")
        ∧ collectionCount s' (Row.mk "c1" "A" [1] "t1" "m1").record_id + 1
            = collectionCount [Row.mk "c1" "A" [1] "t1" "m1", Row.mk "c2" "B" [2] "t2" "m2"]
                (Row.mk "c1" "A" [1] "t1" "m1").record_id
        ∧ collectionCount s' "B"
            = collectionCount [Row.mk "c1" "A" [1] "t1" "m1", Row.mk "c2" "B" [2] "t2" "m2"] "B" + 1
        ∧ (∀ (rt : ℚ → ℚ) (q : List ℚ) (k : ℕ),
            ∀ hit ∈ queryVectors rt s' (Row.mk "c1" "A" [1] "t1" "m1").record_id q k,
              hit.id ≠ (Row.mk "c1" "A" [1] "t1" "m1").id) := by
  refine ⟨by decide, by decide, by decide, ?_⟩
  exact upsert_moves_row_c9
    [Row.mk "c1" "A" [1] "t1" "m1", Row.mk "c2" "B" [2] "t2" "m2"]
    (Row.mk "c1" "A" [1] "t1" "m1") "B" [(3 : ℚ)] "t3"
    (by decide) (by decide) (by decide)

/-! ## Chunker (`backend/utils/chunking.py`)

`tiktoken` is an external collaborator: a tokenizer is any pair of
`encode`/`decode` functions over token ids (`ℕ`). `chunk_text`'s `while`
loop is modelled with explicit fuel; `none` means the loop has not
finished within the given fuel, and `chunk_text` supplies fuel
`total_tokens + 1`, which the termination lemma below shows is enough
whenever `overlap < chunk_size`. -/

structure Tok where
  encode : String → List ℕ
  decode : List ℕ → String

/-- Python `str.strip()`: drop leading and trailing whitespace characters. -/
def pyStrip (s : String) : String :=
  String.mk (((s.data.dropWhile Char.isWhitespace).reverse.dropWhile
    Char.isWhitespace).reverse)

structure Chunk where
  text : String
  token_count : ℕ
  page_number : Option ℕ
  section_label : Option String
  index : ℕ
deriving DecidableEq

/-- The token window starting at `s`: `tokens[s : min(s + chunk_size, len)]`. -/
def windowTokens (tokens : List ℕ) (cs s : ℕ) : List ℕ :=
  (tokens.drop s).take (min (s + cs) tokens.length - s)

/-- The `while start < total_tokens` loop of `chunk_text`: slice the
window, decode and strip, append if nonempty, break when the window
reaches the end, else advance `start = end - chunk_overlap`. -/
def chunkLoop (tok : Tok) (tokens : List ℕ) (cs ov : ℕ) (pg : Option ℕ)
    (sec : Option String) : ℕ → ℕ → ℕ → List Chunk → Option (List Chunk)
  | 0, _, _, _ => none
  | fuel + 1, start, idx, acc =>
    if start < tokens.length then
      let e := min (start + cs) tokens.length
      let chunk_tokens := (tokens.drop start).take (e - start)
      let chunk_text_str := pyStrip (tok.decode chunk_tokens)
      let acc1 := if chunk_text_str = "" then acc
        else acc ++ [Chunk.mk chunk_text_str chunk_tokens.length pg sec idx]
      let idx1 := if chunk_text_str = "" then idx else idx + 1
      if tokens.length ≤ e then some acc1
      else chunkLoop tok tokens cs ov pg sec fuel (e - ov) idx1 acc1
    else some acc

/-- `chunk_text`: empty/whitespace-only text gives `[]`; text within
`chunk_size` tokens gives a single stripped chunk; otherwise the sliding
window loop runs. -/
def chunk_text (tok : Tok) (text : String) (cs ov : ℕ) (pg : Option ℕ)
    (sec : Option String) : Option (List Chunk) :=
  if text = "" ∨ pyStrip text = "" then some []
  else
    let tokens := tok.encode text
    if tokens.length ≤ cs then
      some [Chunk.mk (pyStrip text) tokens.length pg sec 0]
    else chunkLoop tok tokens cs ov pg sec (tokens.length + 1) 0 0 []

/-- A concrete deterministic tokenizer (one token per character) used for
counterexamples; `decode ∘ encode = id` holds as for `tiktoken`. -/
def charTok : Tok where
  encode s := s.data.map Char.toNat
  decode ts := String.mk (ts.map Char.ofNat)

/-- With `overlap = chunk_size` the loop never advances: each step slices
`[start, start + chunk_size)` and resets `start = end - overlap = start`. -/
theorem chunkLoop_stuck (tok : Tok) :
    ∀ (fuel idx : ℕ) (acc : List Chunk),
      chunkLoop tok [97, 98, 99, 100, 101] 2 2 none none fuel 0 idx acc = none := by
  intro fuel
  induction fuel with
  | zero => intro idx acc; rfl
  | succ n ih =>
    intro idx acc
    have h5 : ([97, 98, 99, 100, 101] : List ℕ).length = 5 := rfl
    simp only [chunkLoop, h5]
    rw [if_pos (by norm_num), if_neg (by norm_num)]
    exact ih _ _

/-- C5: no configuration-time rejection of `overlap ≥ chunk_size` exists
anywhere in the code, and with `chunk_size = overlap = 2` on a five-token
text the `chunk_text` loop never terminates, for any amount of fuel —
the failure the spec says must be impossible at runtime. -/
theorem no_config_rejection_c5 :
    charTok.encode "abcde" = [97, 98, 99, 100, 101]
    ∧ ∀ (fuel idx : ℕ) (acc : List Chunk),
        chunkLoop charTok (charTok.encode "abcde") 2 2 none none fuel 0 idx acc = none := by
  refine ⟨by decide, ?_⟩
  intro fuel idx acc
  rw [(by decide : charTok.encode "abcde" = [97, 98, 99, 100, 101])]
  exact chunkLoop_stuck charTok fuel idx acc

/-- C6 (amended): for nonempty, non-whitespace-only text within
`chunk_size` tokens, `chunk_text` returns exactly the one chunk carrying
the stripped text. -/
theorem chunk_text_single_c6 (tok : Tok) (text : String) (cs ov : ℕ)
    (pg : Option ℕ) (sec : Option String)
    (htrim : pyStrip text ≠ "") (hle : (tok.encode text).length ≤ cs) :
    chunk_text tok text cs ov pg sec
      = some [Chunk.mk (pyStrip text) (tok.encode text).length pg sec 0] := by
  have hne : ¬ (text = "" ∨ pyStrip text = "") := by
    rintro (rfl | h)
    · exact htrim (by decide)
    · exact htrim h
  simp only [chunk_text, if_neg hne, if_pos hle]

/-- Witness for C6 (amended) on concrete text with surrounding whitespace. -/
theorem chunk_text_single_c6_witness :
    pyStrip " hi " ≠ "" ∧ (charTok.encode " hi ").length ≤ 500
    ∧ chunk_text charTok " hi " 500 50 none none
        = some [Chunk.mk (pyStrip " hi ") (charTok.encode " hi ").length none none 0] := by
  refine ⟨by decide, by decide, ?_⟩
  exact chunk_text_single_c6 charTok " hi " 500 50 none none (by decide) (by decide)

/-- C6 counterexample: the empty text has 0 ≤ chunk_size tokens yet yields
the empty chunk list, not a single chunk. -/
theorem chunk_text_empty_c6_counterexample :
    (charTok.encode "").length ≤ 500
    ∧ chunk_text charTok "" 500 50 none none = some [] := by
  exact ⟨by decide, by decide⟩

/-- Full characterization of the sliding-window loop when
`overlap < chunk_size` and no window decodes to whitespace-only text:
fuel `≥` the stated bound suffices, the produced chunk count is the
ceiling `(N - start - ov) / (cs - ov)` (in its `ℕ` form), all windows
except the last end strictly before the text's end, and chunk `j` is
exactly the decoded, stripped window starting `j * (cs - ov)` after
`start`, with sequential index `idx + j`. -/
theorem chunkLoop_spec (tok : Tok) (tokens : List ℕ) (cs ov : ℕ) (pg : Option ℕ)
    (sec : Option String) (hov : ov < cs) :
    ∀ (fuel start idx : ℕ) (acc : List Chunk),
      start < tokens.length →
      ov < tokens.length - start →
      tokens.length ≤ start + fuel * (cs - ov) →
      (∀ t : ℕ, start + t * (cs - ov) < tokens.length →
        pyStrip (tok.decode (windowTokens tokens cs (start + t * (cs - ov)))) ≠ "") →
      ∃ l, chunkLoop tok tokens cs ov pg sec fuel start idx acc = some (acc ++ l)
        ∧ l.length = (tokens.length - start - ov + (cs - ov) - 1) / (cs - ov)
        ∧ (∀ j, j + 1 < l.length → start + j * (cs - ov) + cs < tokens.length)
        ∧ ∀ j (hj : j < l.length),
            l.get ⟨j, hj⟩ = Chunk.mk
              (pyStrip (tok.decode (windowTokens tokens cs (start + j * (cs - ov)))))
              (windowTokens tokens cs (start + j * (cs - ov))).length
              pg sec (idx + j) := by
  intro fuel
  induction fuel with
  | zero =>
    intro start idx acc hstart hovr hfuel hnb
    exact absurd hfuel (by omega)
  | succ n ih =>
    intro start idx acc hstart hovr hfuel hnb
    have hN : 0 < tokens.length := Nat.lt_of_le_of_lt (Nat.zero_le _) hstart
    have h0 : pyStrip (tok.decode (windowTokens tokens cs start)) ≠ "" := by
      have := hnb 0 (by simpa using hstart)
      simpa using this
    have hwin : windowTokens tokens cs start
        = (tokens.drop start).take (min (start + cs) tokens.length - start) := rfl
    have hstrip : ¬ (pyStrip (tok.decode
        ((tokens.drop start).take (min (start + cs) tokens.length - start))) = "") := by
      rw [← hwin]
      exact h0
    simp only [chunkLoop, if_pos hstart]
    by_cases hlast : tokens.length ≤ min (start + cs) tokens.length
    · -- final window: the loop breaks
      rw [if_pos hlast, if_neg hstrip]
      have hcs : tokens.length ≤ start + cs := by omega
      refine ⟨[Chunk.mk (pyStrip (tok.decode (windowTokens tokens cs start)))
        (windowTokens tokens cs start).length pg sec idx], by rw [hwin], ?_, ?_, ?_⟩
      · have h1 : tokens.length - start - ov + (cs - ov) - 1 < 2 * (cs - ov) := by omega
        have h2 : 1 * (cs - ov) ≤ tokens.length - start - ov + (cs - ov) - 1 := by omega
        simp only [List.length_singleton]
        exact (Nat.div_eq_of_lt_le h2 h1).symm
      · intro j hj
        simp only [List.length_singleton] at hj
        omega
      · intro j hj
        simp only [List.length_singleton] at hj
        have hj0 : j = 0 := by omega
        subst hj0
        simp
    · -- the loop continues with start1 = start + (cs - ov)
      rw [if_neg hlast, if_neg hstrip, if_neg hstrip]
      have hlt : start + cs < tokens.length := by omega
      have hstart1 : min (start + cs) tokens.length - ov = start + (cs - ov) := by omega
      rw [hstart1]
      have hovr1 : ov < tokens.length - (start + (cs - ov)) := by omega
      have hfuel1 : tokens.length ≤ start + (cs - ov) + n * (cs - ov) := by
        rw [Nat.succ_mul] at hfuel
        omega
      have hnb1 : ∀ t : ℕ, start + (cs - ov) + t * (cs - ov) < tokens.length →
          pyStrip (tok.decode (windowTokens tokens cs
            (start + (cs - ov) + t * (cs - ov)))) ≠ "" := by
        intro t ht
        have heq : start + (t + 1) * (cs - ov) = start + (cs - ov) + t * (cs - ov) := by
          rw [Nat.succ_mul]
          omega
        have := hnb (t + 1) (by rw [heq]; exact ht)
        rwa [heq] at this
      rcases ih (start + (cs - ov)) (idx + 1)
        (acc ++ [Chunk.mk (pyStrip (tok.decode (windowTokens tokens cs start)))
          (windowTokens tokens cs start).length pg sec idx])
        (by omega) hovr1 hfuel1 hnb1 with ⟨l1, hleq, hllen, hlnf, hlget⟩
      refine ⟨Chunk.mk (pyStrip (tok.decode (windowTokens tokens cs start)))
        (windowTokens tokens cs start).length pg sec idx :: l1, ?_, ?_, ?_, ?_⟩
      · rw [hwin] at hleq ⊢
        rw [hleq]
        simp
      · simp only [List.length_cons, hllen]
        have hx : tokens.length - start - ov + (cs - ov) - 1
            = (tokens.length - (start + (cs - ov)) - ov + (cs - ov) - 1) + (cs - ov) := by
          omega
        rw [hx, Nat.add_div_right _ (by omega : 0 < cs - ov)]
      · intro j hj
        cases j with
        | zero => simpa using hlt
        | succ j0 =>
          simp only [List.length_cons] at hj
          have := hlnf j0 (by omega)
          rw [Nat.succ_mul]
          omega
      · intro j hj
        cases j with
        | zero => simp
        | succ j0 =>
          simp only [List.length_cons] at hj
          have hg := hlget j0 (by omega)
          have heq : start + (j0 + 1) * (cs - ov)
              = start + (cs - ov) + j0 * (cs - ov) := by
            rw [Nat.succ_mul]
            omega
          simp only [List.get_cons_succ]
          rw [hg, heq]
          have : idx + 1 + j0 = idx + (j0 + 1) := by omega
          rw [this]

/-- C3 (amended): when `overlap < chunk_size`, the token count `N` exceeds
`chunk_size`, and no token window decodes to whitespace-only text,
`chunk_text` returns exactly `ceil((N - overlap) / (chunk_size - overlap))`
chunks (written with `ℕ` division), chunk `j` is the decoded, stripped
window starting at token offset `j * (chunk_size - overlap)` with
sequential index `j`, and each pair of consecutive chunks shares exactly
`overlap` tokens of pre-decode content at the boundary: the last `overlap`
tokens of window `j` are the first `overlap` tokens of window `j + 1`. -/
theorem chunk_text_count_overlap_c3 (tok : Tok) (text : String) (cs ov : ℕ)
    (pg : Option ℕ) (sec : Option String)
    (hov : ov < cs)
    (htrim : pyStrip text ≠ "")
    (hN : cs < (tok.encode text).length)
    (hnb : ∀ t : ℕ, t * (cs - ov) < (tok.encode text).length →
      pyStrip (tok.decode (windowTokens (tok.encode text) cs (t * (cs - ov)))) ≠ "") :
    ∃ l, chunk_text tok text cs ov pg sec = some l
      ∧ l.length = ((tok.encode text).length - ov + (cs - ov) - 1) / (cs - ov)
      ∧ (∀ j (hj : j < l.length),
          (l.get ⟨j, hj⟩).text
            = pyStrip (tok.decode (windowTokens (tok.encode text) cs (j * (cs - ov))))
          ∧ (l.get ⟨j, hj⟩).index = j
          ∧ (l.get ⟨j, hj⟩).token_count
            = (windowTokens (tok.encode text) cs (j * (cs - ov))).length)
      ∧ (∀ j, j + 1 < l.length →
          (windowTokens (tok.encode text) cs (j * (cs - ov))).drop (cs - ov)
            = (windowTokens (tok.encode text) cs ((j + 1) * (cs - ov))).take ov
          ∧ ((windowTokens (tok.encode text) cs ((j + 1) * (cs - ov))).take ov).length
            = ov) := by
  have hne : ¬ (text = "" ∨ pyStrip text = "") := by
    rintro (rfl | h)
    · exact htrim (by decide)
    · exact htrim h
  have hcs1 : 0 < cs := by omega
  have hN0 : 0 < (tok.encode text).length := by omega
  have hfuel : (tok.encode text).length
      ≤ 0 + ((tok.encode text).length + 1) * (cs - ov) := by
    have h1 : ((tok.encode text).length + 1) * 1
        ≤ ((tok.encode text).length + 1) * (cs - ov) :=
      Nat.mul_le_mul_left _ (by omega)
    omega
  have hnb0 : ∀ t : ℕ, 0 + t * (cs - ov) < (tok.encode text).length →
      pyStrip (tok.decode (windowTokens (tok.encode text) cs
        (0 + t * (cs - ov)))) ≠ "" := by
    intro t ht
    have := hnb t (by omega)
    simpa using this
  rcases chunkLoop_spec tok (tok.encode text) cs ov pg sec hov
    ((tok.encode text).length + 1) 0 0 [] hN0 (by omega) hfuel hnb0
    with ⟨l, heq, hlen, hnf, hget⟩
  refine ⟨l, ?_, ?_, ?_, ?_⟩
  · simp only [chunk_text, if_neg hne, if_neg (by omega : ¬ ((tok.encode text).length ≤ cs))]
    simpa using heq
  · have h0 : (tok.encode text).length - 0 - ov = (tok.encode text).length - ov := by
      omega
    rw [hlen, h0]
  · intro j hj
    have h := hget j hj
    rw [h]
    simp
  · intro j hjl
    have hwend := hnf j hjl
    rw [Nat.zero_add] at hwend
    have hg1 : 0 < cs - ov := by omega
    have hminj : min (j * (cs - ov) + cs) (tok.encode text).length
        = j * (cs - ov) + cs := by omega
    have hsucc : (j + 1) * (cs - ov) = j * (cs - ov) + (cs - ov) := by
      rw [Nat.succ_mul]
    have hges : (j + 1) * (cs - ov) + ov ≤ j * (cs - ov) + cs := by omega
    have hbound : (j + 1) * (cs - ov) + ov < (tok.encode text).length := by omega
    constructor
    · unfold windowTokens
      rw [hminj]
      have h1 : j * (cs - ov) + cs - j * (cs - ov) = cs := by omega
      rw [h1]
      rw [List.drop_take, List.drop_drop]
      have h2 : cs - (cs - ov) = ov := by omega
      rw [h2]
      rw [List.take_take]
      have h3 : min ov (min ((j + 1) * (cs - ov) + cs) (tok.encode text).length
          - (j + 1) * (cs - ov)) = ov := by omega
      rw [h3, hsucc]
    · unfold windowTokens
      rw [List.take_take, List.length_take, List.length_drop]
      omega

/-- C3 counterexample: with the character tokenizer, `cs = 1`, `ov = 0`,
the three-token text `"a\nb"` has its middle window decode to pure
whitespace, which the loop skips, so only 2 chunks come back although
`ceil((N - O) / (cs - O)) = 3`. -/
theorem chunk_text_skip_c3_counterexample :
    (charTok.encode "a\nb").length = 3
    ∧ ((charTok.encode "a\nb").length - 0 + (1 - 0) - 1) / (1 - 0) = 3
    ∧ (chunk_text charTok "a\nb" 1 0 none none).map List.length = some 2 := by
  exact ⟨by decide, by decide, by decide⟩

/-- Witness for C3 (amended): `"abcde"`, `chunk_size = 2`, `overlap = 1`
gives 4 chunks of consecutive overlapping windows. -/
theorem chunk_text_count_overlap_c3_witness :
    0 < 2 - 1 ∧ pyStrip "abcde" ≠ "" ∧ 2 < (charTok.encode "abcde").length
    ∧ ∃ l, chunk_text charTok "abcde" 2 1 none none = some l
      ∧ l.length = ((charTok.encode "abcde").length - 1 + (2 - 1) - 1) / (2 - 1)
      ∧ (∀ j (hj : j < l.length),
          (l.get ⟨j, hj⟩).text
            = pyStrip (charTok.decode (windowTokens (charTok.encode "abcde") 2 (j * (2 - 1))))
          ∧ (l.get ⟨j, hj⟩).index = j
          ∧ (l.get ⟨j, hj⟩).token_count
            = (windowTokens (charTok.encode "abcde") 2 (j * (2 - 1))).length)
      ∧ (∀ j, j + 1 < l.length →
          (windowTokens (charTok.encode "abcde") 2 (j * (2 - 1))).drop (2 - 1)
            = (windowTokens (charTok.encode "abcde") 2 ((j + 1) * (2 - 1))).take 1
          ∧ ((windowTokens (charTok.encode "abcde") 2 ((j + 1) * (2 - 1))).take 1).length
            = 1) := by
  refine ⟨by decide, by decide, by decide, ?_⟩
  exact chunk_text_count_overlap_c3 charTok "abcde" 2 1 none none
    (by decide) (by decide) (by decide)
    (by
      intro t ht
      have ht5 : t < 5 := by
        have : (charTok.encode "abcde").length = 5 := by decide
        omega
      interval_cases t <;> decide)

/-! ## Cryptographic vault (`backend/utils/encryption.py`)

The cipher itself is the third-party `cryptography.fernet.Fernet`;
`encrypt_bytes_with_user_key`/`decrypt_bytes_with_user_key` are direct
delegations to it. -/

/-- `cryptography.fernet.InvalidToken`, the spec's CryptoFailure. -/
inductive CryptoFailure
  | invalidToken
deriving DecidableEq

/-- Modelled from the spec: the Fernet authenticated symmetric cipher
(third-party `cryptography` package, not part of this repository), per
section 4.2 — decryption with the encrypting key returns the plaintext,
decryption with any other key fails with CryptoFailure. Byte strings are
`List ℕ`. -/
structure Fernet (Key CT : Type) where
  encrypt : Key → List ℕ → CT
  decrypt : Key → CT → Except CryptoFailure (List ℕ)
  decrypt_encrypt : ∀ k data, decrypt k (encrypt k data) = Except.ok data
  decrypt_wrong_key : ∀ k k2 data, k ≠ k2 →
    ∃ f, decrypt k2 (encrypt k data) = Except.error f

/-- `encrypt_bytes_with_user_key`: `Fernet(user_key).encrypt(data)`. -/
def encrypt_bytes_with_user_key (f : Fernet Key CT) (user_key : Key)
    (data : List ℕ) : CT :=
  f.encrypt user_key data

/-- `decrypt_bytes_with_user_key`: `Fernet(user_key).decrypt(data)`. -/
def decrypt_bytes_with_user_key (f : Fernet Key CT) (user_key : Key)
    (data : CT) : Except CryptoFailure (List ℕ) :=
  f.decrypt user_key data

/-- C4: for every user key, decrypting an encryption with the same key
returns the plaintext, and decrypting it with any distinct key raises
CryptoFailure instead of returning a value. -/
theorem encryption_roundtrip_c4 {Key CT : Type} (f : Fernet Key CT)
    (k k2 : Key) (x : List ℕ) (hkk : k ≠ k2) :
    decrypt_bytes_with_user_key f k (encrypt_bytes_with_user_key f k x)
      = Except.ok x
    ∧ ∃ fl, decrypt_bytes_with_user_key f k2 (encrypt_bytes_with_user_key f k x)
      = Except.error fl := by
  exact ⟨f.decrypt_encrypt k x, f.decrypt_wrong_key k k2 x hkk⟩

/-- An ideal-cipher instance of the Fernet contract, for the witness. -/
def toyFernet : Fernet ℕ (ℕ × List ℕ) where
  encrypt k data := (k, data)
  decrypt k c := if c.1 = k then Except.ok c.2 else Except.error CryptoFailure.invalidToken
  decrypt_encrypt := by
    intro k data
    simp
  decrypt_wrong_key := by
    intro k k2 data h
    exact ⟨CryptoFailure.invalidToken, by simp [h]⟩

/-- Witness for C4 at a concrete key pair and plaintext. -/
theorem encryption_roundtrip_c4_witness :
    (0 : ℕ) ≠ 1
    ∧ decrypt_bytes_with_user_key toyFernet 0 (encrypt_bytes_with_user_key toyFernet 0 [7, 8])
        = Except.ok [7, 8]
    ∧ ∃ fl, decrypt_bytes_with_user_key toyFernet 1
        (encrypt_bytes_with_user_key toyFernet 0 [7, 8]) = Except.error fl := by
  have h := encryption_roundtrip_c4 toyFernet 0 1 [7, 8] (by decide)
  exact ⟨by decide, h.1, h.2⟩

/-! ## Ingestion orchestrator (`backend/routers/documents.py`)

`_process_document` runs as a background task. Each fallible collaborator
(key unwrap, extraction, chunk persistence, embedding gateway, vector
store, status update) is a field of `IngestEnv`; `Except.error e` models
that step raising exception `e`. The outer `Except` of
`processDocumentTask` models an exception escaping the task. -/

inductive DocStatus
  | processing
  | indexed (page_count : ℕ) (token_count : ℕ)
  | error (msg : String)
deriving DecidableEq

structure IngestEnv where
  decryptKey : Except String Unit
  extractText : Except String (List (ℕ × String))
  countTokens : String → ℕ
  chunkPages : List (ℕ × String) → List Chunk
  persistChunks : List Chunk → Except String Unit
  getEmbeddings : List String → Except String (List (List ℚ))
  addVectorsStep : Except String Unit
  updateIndexed : Except String Unit

/-- Python `str(e)[:500]`. -/
def strTake (s : String) (n : ℕ) : String := String.mk (s.data.take n)

/-- The `try` body of `_process_document`: unwrap the key, extract text
(empty gives the fixed error status), chunk (empty gives the fixed error
status), persist encrypted chunks, embed, index, mark indexed. -/
def processCore (env : IngestEnv) : Except String DocStatus := do
  let _ ← env.decryptKey
  let pages ← env.extractText
  if pages.isEmpty then
    return DocStatus.error "No extractable text found in file"
  let full_text := String.intercalate "\n" (pages.map (fun p => p.2))
  let total_tokens := env.countTokens full_text
  let chunks := env.chunkPages pages
  if chunks.isEmpty then
    return DocStatus.error "Failed to create text chunks"
  let _ ← env.persistChunks chunks
  let _ ← env.getEmbeddings (chunks.map Chunk.text)
  let _ ← env.addVectorsStep
  let _ ← env.updateIndexed
  return DocStatus.indexed pages.length total_tokens

/-- `_process_document` with its `except Exception` handler: any raised
exception is converted to an error status with the message truncated to
500 characters (`_set_document_error(document_id, str(e)[:500])`). -/
def processDocumentTask (env : IngestEnv) : Except String DocStatus :=
  match processCore env with
  | Except.ok s => Except.ok s
  | Except.error e => Except.ok (DocStatus.error (strTake e 500))

/-- C7: the ingestion background task never lets an exception escape, and
whenever any step raises, the persisted status is `error` with the
message truncated to at most 500 characters. -/
theorem ingestion_error_containment_c7 (env : IngestEnv) :
    (∃ s, processDocumentTask env = Except.ok s)
    ∧ (∀ e, processCore env = Except.error e →
        processDocumentTask env = Except.ok (DocStatus.error (strTake e 500))
        ∧ (strTake e 500).length ≤ 500) := by
  constructor
  · unfold processDocumentTask
    cases processCore env with
    | ok s => exact ⟨s, rfl⟩
    | error e => exact ⟨DocStatus.error (strTake e 500), rfl⟩
  · intro e he
    unfold processDocumentTask
    rw [he]
    exact ⟨rfl, List.length_take_le _ _⟩

/-- An environment whose embedding-gateway call raises, for the witness. -/
def envBoom : IngestEnv where
  decryptKey := Except.ok ()
  extractText := Except.ok [(1, "hello")]
  countTokens := fun _ => 1
  chunkPages := fun _ => [Chunk.mk "hello" 1 none none 0]
  persistChunks := fun _ => Except.ok ()
  getEmbeddings := fun _ => Except.error "boom"
  addVectorsStep := Except.ok ()
  updateIndexed := Except.ok ()

/-- Witness for C7: a failing embedding step yields a contained,
truncated error status. -/
theorem ingestion_error_containment_c7_witness :
    processCore envBoom = Except.error "boom"
    ∧ processDocumentTask envBoom = Except.ok (DocStatus.error (strTake "boom" 500))
    ∧ (strTake "boom" 500).length ≤ 500 := by
  have h : processCore envBoom = Except.error "boom" := rfl
  exact ⟨h, (ingestion_error_containment_c7 envBoom).2 "boom" h⟩

/-! ## Hybrid retriever (`backend/utils/retrieval.py`)

Python's `re` module is an external collaborator, modelled by `ReModule`:
a regex pattern is represented by the phrase or keyword it was escaped
from, and the module supplies match counts and the span of the first
match. Python dicts keep insertion order; the `scores` and `chunk_map`
dicts of `_rrf_merge` are association lists updated in place, a fresh key
being appended. -/

/-- `RetrievedChunk` of `retrieval.py`. -/
structure RetrievedChunk where
  chunk_id : String
  document : String
  metadata : String
  vector_score : ℚ
  keyword_score : ℚ
  rrf_score : ℚ
  match_highlights : List String
deriving DecidableEq

/-- The Python `re` module as used by `retrieval.py`. -/
structure ReModule where
  findallQuoted : String → List String
  subQuoted : String → String
  findallWords : String → List String
  compileOk : String → Bool
  findallCount : String → String → ℕ
  searchSpan : String → String → Option (ℕ × ℕ)

/-- `_STOP_WORDS`. -/
def STOP_WORDS : List String :=
  ["a", "an", "the", "is", "are", "was", "were", "be", "been", "being",
   "have", "has", "had", "do", "does", "did", "will", "would", "shall",
   "should", "may", "might", "can", "could", "about", "above", "after",
   "again", "against", "all", "am", "and", "any", "at", "before", "below",
   "between", "both", "but", "by", "down", "during", "each", "few", "for",
   "from", "further", "get", "got", "had", "has", "have", "he", "her",
   "here", "hers", "herself", "him", "himself", "his", "how", "i", "if",
   "in", "into", "it", "its", "itself", "just", "let", "me", "more",
   "most", "my", "myself", "no", "nor", "not", "now", "of", "off", "on",
   "once", "only", "or", "other", "our", "ours", "ourselves", "out",
   "over", "own", "same", "she", "so", "some", "still", "such", "than",
   "that", "the", "their", "theirs", "them", "themselves", "then",
   "there", "these", "they", "this", "those", "through", "to", "too",
   "under", "until", "up", "us", "very", "was", "we", "were", "what",
   "when", "where", "which", "while", "who", "whom", "why", "will",
   "with", "you", "your", "yours", "yourself", "yourselves"]

/-- Python `str.lower()`: lower-case character by character. -/
def pyLower (s : String) : String := String.mk (s.data.map Char.toLower)

/-- `_extract_query_terms`: quoted phrases, then non-stop-word tokens of
length `> 2` from the remaining text. -/
def extractQueryTerms (re : ReModule) (query : String) :
    List String × List String :=
  let exact_phrases := re.findallQuoted query
  let remaining := re.subQuoted query
  let words := re.findallWords remaining
  let keywords := words.filter
    (fun w => !(STOP_WORDS.contains (pyLower w)) && decide (w.length > 2))
  (exact_phrases, keywords)

/-- `_build_regex_patterns`: phrase patterns weight 1.0, keyword patterns
weight 0.5; a pattern failing to compile is skipped. -/
def buildRegexPatterns (re : ReModule) (exact_phrases keywords : List String) :
    List (String × ℚ) :=
  exact_phrases.filterMap (fun p => if re.compileOk p then some (p, (1 : ℚ)) else none)
    ++ keywords.filterMap (fun kw => if re.compileOk kw then some (kw, (1 / 2 : ℚ)) else none)

/-- Python `text[a:b]` on character indices, `a ≤ b`. -/
def strSlice (t : String) (a b : ℕ) : String :=
  String.mk ((t.data.drop a).take (b - a))

/-- `_score_chunk_regex`: sum `weight * min(count, 3)` over patterns,
normalise by `weight * 3` sums, clamp to 1, and collect one ±40-character
context snippet per matching pattern. -/
def scoreChunkRegex (re : ReModule) (text : String)
    (patterns : List (String × ℚ)) : ℚ × List String :=
  if patterns = [] then (0, [])
  else
    let step := fun (acc : ℚ × ℚ × List String) (pw : String × ℚ) =>
      let cnt := re.findallCount pw.1 text
      let total1 := acc.1 + pw.2 * (min cnt 3 : ℕ)
      let maxp1 := acc.2.1 + pw.2 * 3
      let hls1 := if cnt > 0 then
          match re.searchSpan pw.1 text with
          | some se =>
            let a := se.1 - 40
            let b := min (se.2 + 40) text.length
            let snippet := pyStrip (strSlice text a b)
            let snippet := if a > 0 then "…" ++ snippet else snippet
            let snippet := if b < text.length then snippet ++ "…" else snippet
            acc.2.2 ++ [snippet]
          | none => acc.2.2
        else acc.2.2
      (total1, maxp1, hls1)
    let r := patterns.foldl step (0, 0, [])
    let score := if r.2.1 > 0 then r.1 / r.2.1 else 0
    (min score 1, r.2.2)

/-- `vector_top_k or top_k * 3`: Python `or` also replaces a falsy `0`. -/
def resolveVtk (vector_top_k : Option ℕ) (top_k : ℕ) : ℕ :=
  match vector_top_k with
  | some v => if v = 0 then top_k * 3 else v
  | none => top_k * 3

/-- One iteration of the vector-channel loop: similarity
`max(0, 1 - distance)`, decrypted text preferred over the stored copy. -/
def vectorHitChunk (decrypted : List (String × String × String)) (hit : Hit) :
    RetrievedChunk :=
  let similarity := max 0 (1 - hit.distance)
  match decrypted.find? (fun e => e.1 == hit.id) with
  | some e => RetrievedChunk.mk hit.id e.2.1 e.2.2 similarity 0 0 []
  | none => RetrievedChunk.mk hit.id hit.document hit.metadata similarity 0 0 []

/-- The vector channel of `hybrid_retrieve`. -/
def vectorRanked (rt : ℚ → ℚ) (store : List Row) (record_id : String)
    (query_embedding : List ℚ) (decrypted : List (String × String × String))
    (vtk : ℕ) : List RetrievedChunk :=
  (queryVectors rt store record_id query_embedding vtk).map
    (vectorHitChunk decrypted)

/-- The keyword channel of `hybrid_retrieve`: score every decrypted chunk,
drop zero scores, stable-sort descending by keyword score, truncate. -/
def keywordRanked (re : ReModule) (patterns : List (String × ℚ))
    (decrypted : List (String × String × String)) (vtk : ℕ) :
    List RetrievedChunk :=
  if patterns = [] then []
  else
    let keyword_scored := decrypted.filterMap (fun e =>
      let sh := scoreChunkRegex re e.2.1 patterns
      if sh.1 > 0 then some (RetrievedChunk.mk e.1 e.2.1 e.2.2 0 sh.1 0 sh.2)
      else none)
    (ssort (fun a b => decide (b.keyword_score ≤ a.keyword_score)) keyword_scored).take vtk

/-- Insertion-ordered dict lookup (`d.get(cid)` / `d[cid]`). -/
def dFind (m : List (String × α)) (cid : String) : Option α :=
  (m.find? (fun p => p.1 == cid)).map (fun p => p.2)

/-- Insertion-ordered dict update `d[cid] = v`: replace in place if the
key exists, else append. -/
def dSet (m : List (String × α)) (cid : String) (v : α) : List (String × α) :=
  if m.any (fun p => p.1 == cid) then
    m.map (fun p => if p.1 == cid then (cid, v) else p)
  else m ++ [(cid, v)]

/-- `scores.get(cid, 0.0)`. -/
def dGetQ (m : List (String × ℚ)) (cid : String) : ℚ :=
  (dFind m cid).getD 0

/-- The first loop of `_rrf_merge` (over `vector_ranked`, ranks 1-based):
accumulate `1 / (k + rank)` and record the chunk object. -/
def rrfStep1 (k : ℚ) (acc : List (String × ℚ) × List (String × RetrievedChunk))
    (p : ℕ × RetrievedChunk) :
    List (String × ℚ) × List (String × RetrievedChunk) :=
  let cid := p.2.chunk_id
  (dSet acc.1 cid (dGetQ acc.1 cid + 1 / (k + (p.1 + 1 : ℕ))),
   dSet acc.2 cid p.2)

/-- The in-place merge of `_rrf_merge`'s keyword loop: keyword score and
highlights from the keyword entry land on the surviving vector chunk. -/
def mergeKw (old c : RetrievedChunk) : RetrievedChunk :=
  RetrievedChunk.mk old.chunk_id old.document old.metadata old.vector_score
    c.keyword_score old.rrf_score c.match_highlights

/-- The second loop of `_rrf_merge` (over `keyword_ranked`): accumulate
the keyword term and merge keyword score and highlights into an existing
vector chunk with the same id. -/
def rrfStep2 (k : ℚ) (acc : List (String × ℚ) × List (String × RetrievedChunk))
    (p : ℕ × RetrievedChunk) :
    List (String × ℚ) × List (String × RetrievedChunk) :=
  let c := p.2
  let cid := c.chunk_id
  let scores1 := dSet acc.1 cid (dGetQ acc.1 cid + 1 / (k + (p.1 + 1 : ℕ)))
  let cmap1 := match dFind acc.2 cid with
    | some old => dSet acc.2 cid (mergeKw old c)
    | none => dSet acc.2 cid c
  (scores1, cmap1)

/-- `_rrf_merge`: run both rank loops, assign each chunk its accumulated
RRF score in `scores` insertion order, stable-sort descending. -/
def rrfMerge (vector_ranked keyword_ranked : List RetrievedChunk) (k : ℚ) :
    List RetrievedChunk :=
  let a1 := vector_ranked.enum.foldl (rrfStep1 k) ([], [])
  let a2 := keyword_ranked.enum.foldl (rrfStep2 k) a1
  let result := a2.1.map (fun p =>
    match dFind a2.2 p.1 with
    | some c => RetrievedChunk.mk c.chunk_id c.document c.metadata
        c.vector_score c.keyword_score p.2 c.match_highlights
    | none => RetrievedChunk.mk p.1 "" "" 0 0 p.2 [])
  ssort (fun a b => decide (b.rrf_score ≤ a.rrf_score)) result

/-- `hybrid_retrieve`: vector channel, keyword channel, then fusion — a
channel that is empty leaves the other channel's own score as the rank
score, otherwise RRF with `k = 60`. -/
def hybridRetrieve (rt : ℚ → ℚ) (re : ReModule) (store : List Row)
    (record_id : String) (query : String) (query_embedding : List ℚ)
    (decrypted : List (String × String × String)) (top_k : ℕ)
    (vector_top_k : Option ℕ) : List RetrievedChunk :=
  let vtk := resolveVtk vector_top_k top_k
  let vector_ranked := vectorRanked rt store record_id query_embedding decrypted vtk
  let terms := extractQueryTerms re query
  let patterns := buildRegexPatterns re terms.1 terms.2
  let keyword_ranked := keywordRanked re patterns decrypted vtk
  if keyword_ranked = [] then
    (vector_ranked.map (fun c => RetrievedChunk.mk c.chunk_id c.document
      c.metadata c.vector_score c.keyword_score c.vector_score
      c.match_highlights)).take top_k
  else if vector_ranked = [] then
    (keyword_ranked.map (fun c => RetrievedChunk.mk c.chunk_id c.document
      c.metadata c.vector_score c.keyword_score c.keyword_score
      c.match_highlights)).take top_k
  else
    (rrfMerge vector_ranked keyword_ranked 60).take top_k

theorem vectorHitChunk_vector_score (d : List (String × String × String)) (hit : Hit) :
    (vectorHitChunk d hit).vector_score = max 0 (1 - hit.distance) := by
  unfold vectorHitChunk
  cases d.find? (fun e => e.1 == hit.id) <;> rfl

theorem vectorHitChunk_chunk_id (d : List (String × String × String)) (hit : Hit) :
    (vectorHitChunk d hit).chunk_id = hit.id := by
  unfold vectorHitChunk
  cases d.find? (fun e => e.1 == hit.id) <;> rfl

/-- `query_vectors` returns `min top_k (collection size)` hits. -/
theorem queryVectors_length (rt : ℚ → ℚ) (store : List Row) (cid : String)
    (q : List ℚ) (top_k : ℕ) :
    (queryVectors rt store cid q top_k).length
      = if store.filter (fun r => r.record_id == cid) = [] then 0
        else min top_k (store.filter (fun r => r.record_id == cid)).length := by
  unfold queryVectors
  by_cases h : store.filter (fun r => r.record_id == cid) = []
  · simp [h]
  · rw [if_neg h, if_neg h, List.length_map, List.length_take, length_ssort,
      List.length_map]

/-- `query_vectors` output is sorted ascending by distance. -/
theorem queryVectors_sorted (rt : ℚ → ℚ) (store : List Row) (cid : String)
    (q : List ℚ) (top_k : ℕ) :
    (queryVectors rt store cid q top_k).Pairwise
      (fun h1 h2 => h1.distance ≤ h2.distance) := by
  unfold queryVectors
  by_cases hrows : store.filter (fun r => r.record_id == cid) = []
  · simp [hrows]
  · rw [if_neg hrows]
    have htot : ∀ a b : ℚ × Hit,
        decide (a.1 ≤ b.1) = true ∨ decide (b.1 ≤ a.1) = true := by
      intro a b
      rcases le_total a.1 b.1 with h | h
      · exact Or.inl (by simpa using h)
      · exact Or.inr (by simpa using h)
    have htrans : ∀ a b c : ℚ × Hit, decide (a.1 ≤ b.1) = true →
        decide (b.1 ≤ c.1) = true → decide (a.1 ≤ c.1) = true := by
      intro a b c hab hbc
      simp only [decide_eq_true_eq] at *
      exact le_trans hab hbc
    have hsorted := ssort_pairwise htot htrans
      ((store.filter (fun r => r.record_id == cid)).map (fun r =>
        let sim := cosineSimilarity rt q r.embedding
        let distance := 1 - sim
        (distance, Hit.mk r.id distance r.document r.metadata)))
    have hmemfact : ∀ p ∈ (store.filter (fun r => r.record_id == cid)).map (fun r =>
        let sim := cosineSimilarity rt q r.embedding
        let distance := 1 - sim
        (distance, Hit.mk r.id distance r.document r.metadata)),
        p.1 = p.2.distance := by
      intro p hp
      rcases List.mem_map.1 hp with ⟨r, _, rfl⟩
      rfl
    rw [List.pairwise_map]
    refine List.Pairwise.imp_of_mem ?_
      (List.Pairwise.sublist (List.take_sublist _ _) hsorted)
    intro a b ha hb hab
    have ha2 := hmemfact a (mem_ssort.1 ((List.take_subset _ _) ha))
    have hb2 := hmemfact b (mem_ssort.1 ((List.take_subset _ _) hb))
    rw [← ha2, ← hb2]
    simpa using hab

/-- The vector channel is sorted descending by vector similarity. -/
theorem vectorRanked_sorted (rt : ℚ → ℚ) (store : List Row) (cid : String)
    (q : List ℚ) (dec : List (String × String × String)) (vtk : ℕ) :
    (vectorRanked rt store cid q dec vtk).Pairwise
      (fun a b => b.vector_score ≤ a.vector_score) := by
  unfold vectorRanked
  rw [List.pairwise_map]
  refine List.Pairwise.imp_of_mem ?_ (queryVectors_sorted rt store cid q vtk)
  intro a b _ _ hab
  rw [vectorHitChunk_vector_score, vectorHitChunk_vector_score]
  exact max_le_max (le_refl 0) (by linarith)

/-- C8: when the keyword channel is empty and the vector channel is not,
`hybrid_retrieve` returns at most `top_k` chunks, each with
`rrf_score = vector_score`, ordered by descending vector similarity. -/
theorem vector_only_path_c8 (rt : ℚ → ℚ) (re : ReModule) (store : List Row)
    (record_id query : String) (q_emb : List ℚ)
    (decrypted : List (String × String × String)) (top_k : ℕ) (vtk0 : Option ℕ)
    (hkr : keywordRanked re (buildRegexPatterns re (extractQueryTerms re query).1
        (extractQueryTerms re query).2) decrypted (resolveVtk vtk0 top_k) = [])
    (hvr : vectorRanked rt store record_id q_emb decrypted (resolveVtk vtk0 top_k) ≠ []) :
    (hybridRetrieve rt re store record_id query q_emb decrypted top_k vtk0).length ≤ top_k
    ∧ (∀ c ∈ hybridRetrieve rt re store record_id query q_emb decrypted top_k vtk0,
        c.rrf_score = c.vector_score)
    ∧ (hybridRetrieve rt re store record_id query q_emb decrypted top_k vtk0).Pairwise
        (fun a b => b.vector_score ≤ a.vector_score) := by
  have hout : hybridRetrieve rt re store record_id query q_emb decrypted top_k vtk0
      = ((vectorRanked rt store record_id q_emb decrypted (resolveVtk vtk0 top_k)).map
          (fun c => RetrievedChunk.mk c.chunk_id c.document c.metadata c.vector_score
            c.keyword_score c.vector_score c.match_highlights)).take top_k := by
    simp only [hybridRetrieve]
    rw [if_pos hkr]
  rw [hout]
  refine ⟨List.length_take_le _ _, ?_, ?_⟩
  · intro c hc
    rcases List.mem_map.1 ((List.take_subset _ _) hc) with ⟨c0, _, rfl⟩
    rfl
  · refine List.Pairwise.sublist (List.take_sublist _ _) ?_
    rw [List.pairwise_map]
    exact (vectorRanked_sorted rt store record_id q_emb decrypted
      (resolveVtk vtk0 top_k)).imp (fun h => h)

/-- A regex engine that finds nothing, for the witness. -/
def trivRe : ReModule where
  findallQuoted _ := []
  subQuoted s := s
  findallWords _ := []
  compileOk _ := false
  findallCount _ _ := 0
  searchSpan _ _ := none

/-- Witness for C8 on a two-row store with no keyword matches. -/
theorem vector_only_path_c8_witness :
    keywordRanked trivRe (buildRegexPatterns trivRe
        (extractQueryTerms trivRe "q").1 (extractQueryTerms trivRe "q").2) [] (resolveVtk none 5) = []
    ∧ vectorRanked (fun q : ℚ => q) [Row.mk "c1" "A" [1] "t1" "m1", Row.mk "c2" "A" [2] "t2" "m2"]
        "A" [1] [] (resolveVtk none 5) ≠ []
    ∧ (hybridRetrieve (fun q : ℚ => q) trivRe
        [Row.mk "c1" "A" [1] "t1" "m1", Row.mk "c2" "A" [2] "t2" "m2"]
        "A" "q" [1] [] 5 none).length ≤ 5
    ∧ (∀ c ∈ hybridRetrieve (fun q : ℚ => q) trivRe
        [Row.mk "c1" "A" [1] "t1" "m1", Row.mk "c2" "A" [2] "t2" "m2"]
        "A" "q" [1] [] 5 none, c.rrf_score = c.vector_score)
    ∧ (hybridRetrieve (fun q : ℚ => q) trivRe
        [Row.mk "c1" "A" [1] "t1" "m1", Row.mk "c2" "A" [2] "t2" "m2"]
        "A" "q" [1] [] 5 none).Pairwise (fun a b => b.vector_score ≤ a.vector_score) := by
  have hlen : (vectorRanked (fun q : ℚ => q)
      [Row.mk "c1" "A" [1] "t1" "m1", Row.mk "c2" "A" [2] "t2" "m2"]
      "A" [1] [] (resolveVtk none 5)).length = 2 := by
    unfold vectorRanked
    rw [List.length_map, queryVectors_length]
    have hf : ([Row.mk "c1" "A" [1] "t1" "m1", Row.mk "c2" "A" [2] "t2" "m2"]).filter
        (fun r => r.record_id == "A")
        = [Row.mk "c1" "A" [1] "t1" "m1", Row.mk "c2" "A" [2] "t2" "m2"] := by
      decide
    rw [hf]
    simp [resolveVtk]
  have hvr : vectorRanked (fun q : ℚ => q)
      [Row.mk "c1" "A" [1] "t1" "m1", Row.mk "c2" "A" [2] "t2" "m2"]
      "A" [1] [] (resolveVtk none 5) ≠ [] := by
    intro hnil
    rw [hnil] at hlen
    simp at hlen
  have h := vector_only_path_c8 (fun q : ℚ => q) trivRe
    [Row.mk "c1" "A" [1] "t1" "m1", Row.mk "c2" "A" [2] "t2" "m2"]
    "A" "q" [1] [] 5 none rfl hvr
  exact ⟨rfl, hvr, h.1, h.2.1, h.2.2⟩

/-! ### Insertion-ordered dict lemmas -/

/-- The key list of a dict, in insertion order. -/
def keysOf (m : List (String × α)) : List String := m.map Prod.fst

theorem dFind_append (m1 m2 : List (String × α)) (cid : String) :
    dFind (m1 ++ m2) cid = (dFind m1 cid).or (dFind m2 cid) := by
  unfold dFind
  rw [List.find?_append]
  cases m1.find? (fun p => p.1 == cid) <;> simp

theorem dFind_eq_none_iff (m : List (String × α)) (cid : String) :
    dFind m cid = none ↔ cid ∉ keysOf m := by
  unfold dFind keysOf
  rw [Option.map_eq_none', List.find?_eq_none]
  constructor
  · intro h hmem
    rcases List.mem_map.1 hmem with ⟨p, hp, hid⟩
    exact h p hp (by simp [hid])
  · intro h p hp hid
    exact h (List.mem_map.2 ⟨p, hp, by simpa using hid⟩)

theorem dSet_of_dFind_none {m : List (String × α)} {cid : String}
    (h : dFind m cid = none) (v : α) : dSet m cid v = m ++ [(cid, v)] := by
  unfold dSet
  rw [if_neg]
  intro hany
  rcases List.any_eq_true.1 hany with ⟨p, hp, hpid⟩
  have := (dFind_eq_none_iff m cid).1 h
  exact this (List.mem_map.2 ⟨p, hp, by simpa using hpid⟩)

theorem dFind_dSet (m : List (String × α)) (cid cid2 : String) (v : α) :
    dFind (dSet m cid v) cid2 = if cid2 = cid then some v else dFind m cid2 := by
  by_cases hmem : m.any (fun p => p.1 == cid)
  · unfold dSet
    rw [if_pos hmem]
    unfold dFind
    rw [List.find?_map]
    have hfun : ((fun p : String × α => p.1 == cid2) ∘
        (fun p => if p.1 == cid then (cid, v) else p))
        = fun p : String × α => p.1 == cid2 := by
      funext p
      simp only [Function.comp]
      by_cases hp : (p.1 == cid) = true
      · have hp2 : p.1 = cid := by simpa using hp
        rw [if_pos hp, ← hp2]
      · rw [if_neg hp]
    rw [hfun]
    by_cases hc : cid2 = cid
    · subst hc
      obtain ⟨p0, hp0, hp0id⟩ := List.any_eq_true.1 hmem
      have hsome : (m.find? (fun p => p.1 == cid2)).isSome :=
        List.find?_isSome.2 ⟨p0, hp0, hp0id⟩
      obtain ⟨a, ha⟩ := Option.isSome_iff_exists.1 hsome
      rw [ha, if_pos rfl]
      have hap0 := List.find?_some ha
      have hap : a.1 = cid2 := by simpa using hap0
      simp [hap]
    · rw [if_neg hc]
      cases hf : m.find? (fun p => p.1 == cid2) with
      | none => rfl
      | some a =>
        have hap0 := List.find?_some hf
        have hap : a.1 = cid2 := by simpa using hap0
        have hane : ¬ a.1 = cid := by
          rw [hap]
          exact hc
        simp [hane]
  · have hnone : dFind m cid = none := by
      rw [dFind_eq_none_iff]
      intro hk
      rcases List.mem_map.1 hk with ⟨p, hp, hid⟩
      exact hmem (List.any_eq_true.2 ⟨p, hp, by simp [hid]⟩)
    rw [dSet_of_dFind_none hnone, dFind_append]
    by_cases hc : cid2 = cid
    · subst hc
      rw [hnone]
      unfold dFind
      simp
    · have hsingle : dFind [(cid, v)] cid2 = none := by
        unfold dFind
        have hne2 : ¬ ((cid == cid2) = true) := by
          simp only [beq_iff_eq]
          exact fun h => hc h.symm
        simp [hne2]
      rw [hsingle, Option.or_none, if_neg hc]

theorem keys_dSet (m : List (String × α)) (cid : String) (v : α) :
    keysOf (dSet m cid v)
      = if cid ∈ keysOf m then keysOf m else keysOf m ++ [cid] := by
  by_cases hmem : m.any (fun p => p.1 == cid)
  · have hk : cid ∈ keysOf m := by
      rcases List.any_eq_true.1 hmem with ⟨p, hp, hpid⟩
      exact List.mem_map.2 ⟨p, hp, by simpa using hpid⟩
    rw [if_pos hk]
    unfold dSet
    rw [if_pos hmem]
    unfold keysOf
    rw [List.map_map]
    apply List.map_congr_left
    intro p _
    simp only [Function.comp]
    by_cases hp : (p.1 == cid) = true
    · rw [if_pos hp]
      exact (by simpa using hp : p.1 = cid).symm
    · rw [if_neg hp]
  · have hk : cid ∉ keysOf m := by
      intro hkm
      rcases List.mem_map.1 hkm with ⟨p, hp, hid⟩
      exact hmem (List.any_eq_true.2 ⟨p, hp, by simp [hid]⟩)
    rw [if_neg hk]
    unfold dSet
    rw [if_neg hmem]
    unfold keysOf
    simp

theorem entry_of_nodup {m : List (String × α)} (hnd : (keysOf m).Nodup)
    {cid : String} {v : α} (hmem : (cid, v) ∈ m) : dFind m cid = some v := by
  induction m with
  | nil => cases hmem
  | cons hd tl ih =>
    rcases List.mem_cons.1 hmem with heq | htl
    · subst heq
      unfold dFind
      simp
    · have hhd : (hd.1 == cid) = false := by
        rw [beq_eq_false_iff_ne]
        intro h1
        have h2 : cid ∈ keysOf tl :=
          List.mem_map.2 ⟨(cid, v), htl, rfl⟩
        unfold keysOf at hnd
        rw [List.map_cons, List.nodup_cons] at hnd
        exact hnd.1 (h1 ▸ h2)
      have hnd2 : (keysOf tl).Nodup := by
        unfold keysOf at hnd ⊢
        rw [List.map_cons, List.nodup_cons] at hnd
        exact hnd.2
      have htl2 := ih hnd2 htl
      unfold dFind at htl2 ⊢
      rw [List.find?_cons, hhd]
      exact htl2

/-- A single-entry dict misses every other key. -/
theorem dFind_singleton_ne (cid cid2 : String) (v : α) (h : cid2 ≠ cid) :
    dFind [(cid, v)] cid2 = none := by
  unfold dFind
  have hne2 : ¬ ((cid == cid2) = true) := by
    simp only [beq_iff_eq]
    exact fun he => h he.symm
  simp [hne2]

/-- After the vector loop of `_rrf_merge`, starting from states that miss
every incoming chunk id: `scores` gains `(cid, 1/(k + rank))` per chunk in
rank order, `chunk_map` gains the chunk objects themselves. -/
theorem rrf_phase1 (k : ℚ) :
    ∀ (l : List RetrievedChunk) (n : ℕ) (s : List (String × ℚ))
      (m : List (String × RetrievedChunk)),
      (l.map RetrievedChunk.chunk_id).Nodup →
      (∀ c ∈ l, dFind s c.chunk_id = none) →
      (∀ c ∈ l, dFind m c.chunk_id = none) →
      (List.enumFrom n l).foldl (rrfStep1 k) (s, m)
        = (s ++ (List.enumFrom n l).map
            (fun p => (p.2.chunk_id, 1 / (k + (p.1 + 1 : ℕ)))),
           m ++ l.map (fun c => (c.chunk_id, c))) := by
  intro l
  induction l with
  | nil =>
    intro n s m _ _ _
    simp [List.enumFrom]
  | cons c tl ih =>
    intro n s m hnd hs hm
    rw [List.enumFrom_cons, List.foldl_cons]
    have hsc := hs c (List.mem_cons_self c tl)
    have hmc := hm c (List.mem_cons_self c tl)
    have hval : dGetQ s c.chunk_id = 0 := by
      unfold dGetQ
      rw [hsc]
      rfl
    have hstep : rrfStep1 k (s, m) (n, c)
        = (s ++ [(c.chunk_id, 1 / (k + (n + 1 : ℕ)))], m ++ [(c.chunk_id, c)]) := by
      unfold rrfStep1
      simp only
      rw [hval, dSet_of_dFind_none hsc, dSet_of_dFind_none hmc, zero_add]
    rw [hstep]
    have hnd2 : (tl.map RetrievedChunk.chunk_id).Nodup := by
      rw [List.map_cons, List.nodup_cons] at hnd
      exact hnd.2
    have hcid : c.chunk_id ∉ tl.map RetrievedChunk.chunk_id := by
      rw [List.map_cons, List.nodup_cons] at hnd
      exact hnd.1
    have hne : ∀ c2 ∈ tl, c2.chunk_id ≠ c.chunk_id := by
      intro c2 hc2 he
      apply hcid
      rw [← he]
      exact List.mem_map_of_mem RetrievedChunk.chunk_id hc2
    have hs2 : ∀ c2 ∈ tl,
        dFind (s ++ [(c.chunk_id, 1 / (k + (n + 1 : ℕ)))]) c2.chunk_id = none := by
      intro c2 hc2
      rw [dFind_append, hs c2 (List.mem_cons_of_mem _ hc2)]
      rw [dFind_singleton_ne _ _ _ (hne c2 hc2)]
      rfl
    have hm2 : ∀ c2 ∈ tl, dFind (m ++ [(c.chunk_id, c)]) c2.chunk_id = none := by
      intro c2 hc2
      rw [dFind_append, hm c2 (List.mem_cons_of_mem _ hc2)]
      rw [dFind_singleton_ne _ _ _ (hne c2 hc2)]
      rfl
    rw [ih (n + 1) _ _ hnd2 hs2 hm2]
    simp [List.append_assoc]

theorem dGetQ_dSet_ne (m : List (String × ℚ)) {cid cid2 : String} (v : ℚ)
    (h : cid2 ≠ cid) : dGetQ (dSet m cid v) cid2 = dGetQ m cid2 := by
  unfold dGetQ
  rw [dFind_dSet, if_neg h]

/-- After the keyword loop of `_rrf_merge`: ids outside the list keep
their score and chunk entries; the id at rank `i + 1` gains
`1 / (k + n + i + 1)` on top of its incoming score and its chunk entry
becomes the keyword-merged object (or the keyword chunk itself when the
id was absent); fresh ids append to the key list in rank order. -/
theorem rrf_phase2 (k : ℚ) :
    ∀ (l : List RetrievedChunk) (n : ℕ) (s : List (String × ℚ))
      (m : List (String × RetrievedChunk)),
      (l.map RetrievedChunk.chunk_id).Nodup →
      (∀ cid, cid ∉ l.map RetrievedChunk.chunk_id →
        dFind ((List.enumFrom n l).foldl (rrfStep2 k) (s, m)).1 cid = dFind s cid
        ∧ dFind ((List.enumFrom n l).foldl (rrfStep2 k) (s, m)).2 cid = dFind m cid)
      ∧ (∀ i (hi : i < l.length),
        dFind ((List.enumFrom n l).foldl (rrfStep2 k) (s, m)).1 (l.get ⟨i, hi⟩).chunk_id
          = some (dGetQ s (l.get ⟨i, hi⟩).chunk_id + 1 / (k + (n + i + 1 : ℕ)))
        ∧ dFind ((List.enumFrom n l).foldl (rrfStep2 k) (s, m)).2 (l.get ⟨i, hi⟩).chunk_id
          = some (match dFind m (l.get ⟨i, hi⟩).chunk_id with
              | some old => mergeKw old (l.get ⟨i, hi⟩)
              | none => l.get ⟨i, hi⟩))
      ∧ keysOf ((List.enumFrom n l).foldl (rrfStep2 k) (s, m)).1
          = keysOf s ++ (l.map RetrievedChunk.chunk_id).filter
              (fun cid => decide (cid ∉ keysOf s)) := by
  intro l
  induction l with
  | nil =>
    intro n s m _
    refine ⟨fun cid _ => ⟨rfl, rfl⟩, fun i hi => absurd hi (by simp), ?_⟩
    simp [List.enumFrom]
  | cons c tl ih =>
    intro n s m hnd
    rw [List.map_cons, List.nodup_cons] at hnd
    obtain ⟨hcid, hnd2⟩ := hnd
    have hne : ∀ c2 ∈ tl, c2.chunk_id ≠ c.chunk_id := by
      intro c2 hc2 he
      apply hcid
      rw [← he]
      exact List.mem_map_of_mem RetrievedChunk.chunk_id hc2
    have hstep : rrfStep2 k (s, m) (n, c)
        = (dSet s c.chunk_id (dGetQ s c.chunk_id + 1 / (k + (n + 1 : ℕ))),
           match dFind m c.chunk_id with
           | some old => dSet m c.chunk_id (mergeKw old c)
           | none => dSet m c.chunk_id c) := rfl
    have hm1 : (match dFind m c.chunk_id with
        | some old => dSet m c.chunk_id (mergeKw old c)
        | none => dSet m c.chunk_id c)
        = dSet m c.chunk_id (match dFind m c.chunk_id with
          | some old => mergeKw old c
          | none => c) := by
      cases dFind m c.chunk_id <;> rfl
    rw [List.enumFrom_cons, List.foldl_cons, hstep, hm1]
    obtain ⟨iha, ihb, ihc⟩ := ih (n + 1)
      (dSet s c.chunk_id (dGetQ s c.chunk_id + 1 / (k + (n + 1 : ℕ))))
      (dSet m c.chunk_id (match dFind m c.chunk_id with
        | some old => mergeKw old c
        | none => c)) hnd2
    refine ⟨?_, ?_, ?_⟩
    · intro cid hcid2
      rw [List.map_cons, List.mem_cons] at hcid2
      push_neg at hcid2
      obtain ⟨hcc, hct⟩ := hcid2
      obtain ⟨ha1, ha2⟩ := iha cid hct
      rw [ha1, ha2, dFind_dSet, dFind_dSet, if_neg hcc, if_neg hcc]
      exact ⟨rfl, rfl⟩
    · intro i hi
      cases i with
      | zero =>
        have hget : (c :: tl).get ⟨0, hi⟩ = c := rfl
        rw [hget]
        obtain ⟨ha1, ha2⟩ := iha c.chunk_id hcid
        rw [ha1, ha2, dFind_dSet, dFind_dSet, if_pos rfl, if_pos rfl]
        constructor
        · have hcast : ((n + 1 : ℕ) : ℚ) = ((n + 0 + 1 : ℕ) : ℚ) := by norm_num
          rw [hcast]
        · rfl
      | succ i0 =>
        have hilen : i0 < tl.length := by
          simpa using hi
        have hget : (c :: tl).get ⟨i0 + 1, hi⟩ = tl.get ⟨i0, hilen⟩ :=
          List.get_cons_succ
        rw [hget]
        obtain ⟨hb1, hb2⟩ := ihb i0 hilen
        have hnei : (tl.get ⟨i0, hilen⟩).chunk_id ≠ c.chunk_id :=
          hne _ (List.get_mem tl i0 hilen)
        rw [dGetQ_dSet_ne _ _ hnei] at hb1
        have harith : n + 1 + i0 + 1 = n + (i0 + 1) + 1 := by omega
        rw [harith] at hb1
        rw [dFind_dSet, if_neg hnei] at hb2
        exact ⟨hb1, hb2⟩
    · rw [ihc, keys_dSet]
      by_cases hmem : c.chunk_id ∈ keysOf s
      · rw [if_pos hmem]
        rw [List.map_cons, List.filter_cons]
        rw [if_neg (by simp [hmem])]
      · rw [if_neg hmem]
        rw [List.map_cons, List.filter_cons]
        rw [if_pos (by simp [hmem])]
        rw [List.append_assoc, List.singleton_append]
        congr 1
        congr 1
        apply List.filter_congr
        intro x hx
        have hxne : x ≠ c.chunk_id := by
          intro he
          exact hcid (he ▸ hx)
        simp [List.mem_append, hxne]

/-- The claimed RRF contribution of one ranked list: `1 / (k + rank)`
with 1-based rank when the id appears, 0 otherwise. -/
def rrfTermSpec (k : ℚ) (ranked : List RetrievedChunk) (cid : String) : ℚ :=
  match ranked.findIdx? (fun c => c.chunk_id == cid) with
  | some i => 1 / (k + (i + 1 : ℕ))
  | none => 0

theorem findIdx?_of_nodup_get :
    ∀ (l : List RetrievedChunk) (st : ℕ),
      (l.map RetrievedChunk.chunk_id).Nodup →
      ∀ i (hi : i < l.length),
        List.findIdx? (fun c => c.chunk_id == (l.get ⟨i, hi⟩).chunk_id) l st
          = some (st + i) := by
  intro l
  induction l with
  | nil =>
    intro st _ i hi
    exact absurd hi (by simp)
  | cons c tl ih =>
    intro st hnd i hi
    rw [List.map_cons, List.nodup_cons] at hnd
    cases i with
    | zero =>
      rw [List.findIdx?_cons, if_pos (by simp)]
      simp
    | succ i0 =>
      have hilen : i0 < tl.length := by simpa using hi
      have hget : (c :: tl).get ⟨i0 + 1, hi⟩ = tl.get ⟨i0, hilen⟩ :=
        List.get_cons_succ
      rw [hget, List.findIdx?_cons]
      rw [if_neg (by
        simp only [beq_iff_eq]
        intro he
        exact hnd.1 (he ▸ List.mem_map_of_mem RetrievedChunk.chunk_id
          (List.get_mem tl i0 hilen)))]
      rw [ih (st + 1) hnd.2 i0 hilen]
      congr 1
      omega

theorem rrfTermSpec_get (k : ℚ) (l : List RetrievedChunk)
    (hnd : (l.map RetrievedChunk.chunk_id).Nodup) (i : ℕ) (hi : i < l.length) :
    rrfTermSpec k l (l.get ⟨i, hi⟩).chunk_id = 1 / (k + (i + 1 : ℕ)) := by
  unfold rrfTermSpec
  rw [show l.findIdx? (fun c => c.chunk_id == (l.get ⟨i, hi⟩).chunk_id)
      = some (0 + i) from findIdx?_of_nodup_get l 0 hnd i hi]
  simp

theorem rrfTermSpec_not_mem (k : ℚ) (l : List RetrievedChunk) (cid : String)
    (h : cid ∉ l.map RetrievedChunk.chunk_id) : rrfTermSpec k l cid = 0 := by
  unfold rrfTermSpec
  rw [List.findIdx?_eq_none_iff.2]
  intro x hx
  simp only [beq_eq_false_iff_ne]
  intro he
  exact h (he ▸ List.mem_map_of_mem RetrievedChunk.chunk_id hx)

theorem rrfTermSpec_pos (k : ℚ) (hk : 0 < k) (l : List RetrievedChunk)
    (cid : String) (h : cid ∈ l.map RetrievedChunk.chunk_id) :
    0 < rrfTermSpec k l cid := by
  unfold rrfTermSpec
  rcases List.mem_map.1 h with ⟨c, hc, hcid⟩
  have hsome : (l.findIdx? (fun c2 => c2.chunk_id == cid)) ≠ none := by
    intro hnone
    have := List.findIdx?_eq_none_iff.1 hnone c hc
    simp [hcid] at this
  cases hf : l.findIdx? (fun c2 => c2.chunk_id == cid) with
  | none => exact absurd hf hsome
  | some i =>
    have hden : (0 : ℚ) < k + (i + 1 : ℕ) := by
      have : (0 : ℚ) ≤ (i + 1 : ℕ) := Nat.cast_nonneg _
      linarith
    exact div_pos one_pos hden

/-- The ids of `query_vectors` hits are distinct when stored ids are. -/
theorem queryVectors_ids_nodup (rt : ℚ → ℚ) (store : List Row) (cid : String)
    (q : List ℚ) (top_k : ℕ) (hstore : (store.map Row.id).Nodup) :
    ((queryVectors rt store cid q top_k).map Hit.id).Nodup := by
  unfold queryVectors
  by_cases hrows : store.filter (fun r => r.record_id == cid) = []
  · simp [hrows]
  · rw [if_neg hrows]
    rw [List.map_map]
    have hrowsnd : ((store.filter (fun r => r.record_id == cid)).map Row.id).Nodup :=
      ((List.filter_sublist store).map Row.id).nodup hstore
    have hscored : (((store.filter (fun r => r.record_id == cid)).map (fun r =>
        let sim := cosineSimilarity rt q r.embedding
        let distance := 1 - sim
        (distance, Hit.mk r.id distance r.document r.metadata))).map
          (fun p => p.2.id)).Nodup := by
      rw [List.map_map]
      exact hrowsnd
    have hperm := (ssort_perm (fun x y : ℚ × Hit => decide (x.1 ≤ y.1))
      ((store.filter (fun r => r.record_id == cid)).map (fun r =>
        let sim := cosineSimilarity rt q r.embedding
        let distance := 1 - sim
        (distance, Hit.mk r.id distance r.document r.metadata)))).map
        (fun p : ℚ × Hit => p.2.id)
    have hsortnd := (hperm.nodup_iff).2 hscored
    exact ((List.take_sublist top_k _).map (fun p : ℚ × Hit => p.2.id)).nodup hsortnd

/-- The ids of the vector channel are distinct when stored ids are. -/
theorem vectorRanked_ids_nodup (rt : ℚ → ℚ) (store : List Row) (cid : String)
    (q : List ℚ) (dec : List (String × String × String)) (vtk : ℕ)
    (hstore : (store.map Row.id).Nodup) :
    ((vectorRanked rt store cid q dec vtk).map RetrievedChunk.chunk_id).Nodup := by
  unfold vectorRanked
  rw [List.map_map]
  have hfun : ∀ h ∈ queryVectors rt store cid q vtk,
      (RetrievedChunk.chunk_id ∘ vectorHitChunk dec) h = Hit.id h := by
    intro h _
    exact vectorHitChunk_chunk_id dec h
  rw [List.map_congr_left hfun]
  exact queryVectors_ids_nodup rt store cid q vtk hstore

/-- Ids produced by the keyword channel are a subsequence of the
decrypted-chunk keys. -/
theorem keywordRanked_ids_sublist (re : ReModule) (patterns : List (String × ℚ)) :
    ∀ (decrypted : List (String × String × String)),
      ((decrypted.filterMap (fun e =>
        let sh := scoreChunkRegex re e.2.1 patterns
        if sh.1 > 0 then some (RetrievedChunk.mk e.1 e.2.1 e.2.2 0 sh.1 0 sh.2)
        else none)).map RetrievedChunk.chunk_id).Sublist
        (decrypted.map (fun e => e.1)) := by
  intro decrypted
  induction decrypted with
  | nil => simp
  | cons e tl ih =>
    rw [List.filterMap_cons, List.map_cons]
    by_cases hsc : (scoreChunkRegex re e.2.1 patterns).1 > 0
    · rw [if_pos hsc, List.map_cons]
      exact ih.cons₂ e.1
    · rw [if_neg hsc]
      exact ih.cons e.1

/-- The ids of the keyword channel are distinct when decrypted-chunk keys
are (they are dict keys in the source). -/
theorem keywordRanked_ids_nodup (re : ReModule) (patterns : List (String × ℚ))
    (decrypted : List (String × String × String)) (vtk : ℕ)
    (hdec : (decrypted.map (fun e => e.1)).Nodup) :
    ((keywordRanked re patterns decrypted vtk).map RetrievedChunk.chunk_id).Nodup := by
  unfold keywordRanked
  by_cases hp : patterns = []
  · simp [hp]
  · rw [if_neg hp]
    have hbase := (keywordRanked_ids_sublist re patterns decrypted).nodup hdec
    have hperm := (ssort_perm
      (fun a b : RetrievedChunk => decide (b.keyword_score ≤ a.keyword_score))
      (decrypted.filterMap (fun e =>
        let sh := scoreChunkRegex re e.2.1 patterns
        if sh.1 > 0 then some (RetrievedChunk.mk e.1 e.2.1 e.2.2 0 sh.1 0 sh.2)
        else none))).map RetrievedChunk.chunk_id
    have hsortnd := (hperm.nodup_iff).2 hbase
    exact ((List.take_sublist vtk _).map RetrievedChunk.chunk_id).nodup hsortnd

/-- Full characterization of `_rrf_merge` under distinct per-list ids:
every output chunk's `rrf_score` is the sum of its `1 / (k + rank)`
contributions from the two ranked lists, its id comes from one of them,
and a chunk present in both lists keeps the vector chunk's document,
metadata and vector score while gaining the keyword chunk's keyword score
and highlights. -/
theorem rrfMerge_spec (vr kr : List RetrievedChunk) (k : ℚ)
    (hv : (vr.map RetrievedChunk.chunk_id).Nodup)
    (hk : (kr.map RetrievedChunk.chunk_id).Nodup) :
    ∀ c ∈ rrfMerge vr kr k,
      c.rrf_score = rrfTermSpec k vr c.chunk_id + rrfTermSpec k kr c.chunk_id
      ∧ (c.chunk_id ∈ vr.map RetrievedChunk.chunk_id
          ∨ c.chunk_id ∈ kr.map RetrievedChunk.chunk_id)
      ∧ (∀ vc ∈ vr, vc.chunk_id = c.chunk_id →
          c.document = vc.document ∧ c.metadata = vc.metadata
          ∧ c.vector_score = vc.vector_score
          ∧ ∀ kc ∈ kr, kc.chunk_id = c.chunk_id →
              c.keyword_score = kc.keyword_score
              ∧ c.match_highlights = kc.match_highlights) := by
  have hph1 : vr.enum.foldl (rrfStep1 k) ([], [])
      = ((List.enumFrom 0 vr).map (fun p => (p.2.chunk_id, 1 / (k + (p.1 + 1 : ℕ)))),
         vr.map (fun c2 => (c2.chunk_id, c2))) := by
    have he : vr.enum = List.enumFrom 0 vr := rfl
    rw [he, rrf_phase1 k vr 0 [] [] hv (fun c2 _ => rfl) (fun c2 _ => rfl)]
    simp
  set vrS := (List.enumFrom 0 vr).map
    (fun p => (p.2.chunk_id, 1 / (k + (p.1 + 1 : ℕ)))) with hvrSdef
  set vrM := vr.map (fun c2 => (c2.chunk_id, c2)) with hvrMdef
  have hkeysS : keysOf vrS = vr.map RetrievedChunk.chunk_id := by
    rw [hvrSdef]
    unfold keysOf
    rw [List.map_map]
    rw [show (Prod.fst ∘ fun p : ℕ × RetrievedChunk =>
        (p.2.chunk_id, 1 / (k + (p.1 + 1 : ℕ))))
        = RetrievedChunk.chunk_id ∘ Prod.snd from rfl]
    rw [← List.map_map, List.enumFrom_map_snd]
  have hkeysM : keysOf vrM = vr.map RetrievedChunk.chunk_id := by
    rw [hvrMdef]
    unfold keysOf
    rw [List.map_map]
    rfl
  have hSnodup : (keysOf vrS).Nodup := by
    rw [hkeysS]
    exact hv
  have hMnodup : (keysOf vrM).Nodup := by
    rw [hkeysM]
    exact hv
  have hSi : ∀ i (hi : i < vr.length),
      dFind vrS (vr.get ⟨i, hi⟩).chunk_id = some (1 / (k + (i + 1 : ℕ))) := by
    intro i hi
    apply entry_of_nodup hSnodup
    rw [hvrSdef]
    have hie : i < (List.enumFrom 0 vr).length := by
      rw [List.enumFrom_length]
      exact hi
    have hmem := List.get_mem (List.enumFrom 0 vr) i hie
    have hel : (List.enumFrom 0 vr).get ⟨i, hie⟩ = (0 + i, vr.get ⟨i, hi⟩) := by
      rw [List.get_enumFrom]
      rfl
    rw [hel] at hmem
    have hmem2 := List.mem_map_of_mem
      (fun p : ℕ × RetrievedChunk => (p.2.chunk_id, 1 / (k + (p.1 + 1 : ℕ)))) hmem
    simpa using hmem2
  have hMi : ∀ i (hi : i < vr.length),
      dFind vrM (vr.get ⟨i, hi⟩).chunk_id = some (vr.get ⟨i, hi⟩) := by
    intro i hi
    apply entry_of_nodup hMnodup
    rw [hvrMdef]
    exact List.mem_map_of_mem _ (List.get_mem vr i hi)
  have hSnone : ∀ cid, cid ∉ vr.map RetrievedChunk.chunk_id → dFind vrS cid = none := by
    intro cid h
    rw [dFind_eq_none_iff, hkeysS]
    exact h
  have hMnone : ∀ cid, cid ∉ vr.map RetrievedChunk.chunk_id → dFind vrM cid = none := by
    intro cid h
    rw [dFind_eq_none_iff, hkeysM]
    exact h
  obtain ⟨pa, pb, pc⟩ := rrf_phase2 k kr 0 vrS vrM hk
  set A := (List.enumFrom 0 kr).foldl (rrfStep2 k) (vrS, vrM) with hAdef
  have hkeysA : keysOf A.1 = vr.map RetrievedChunk.chunk_id
      ++ (kr.map RetrievedChunk.chunk_id).filter
          (fun cid => decide (cid ∉ vr.map RetrievedChunk.chunk_id)) := by
    rw [pc, hkeysS]
  have hAnodup : (keysOf A.1).Nodup := by
    rw [hkeysA, List.nodup_append]
    refine ⟨hv, ((kr.map RetrievedChunk.chunk_id).filter_sublist).nodup hk, ?_⟩
    intro a ha haf
    rcases List.mem_filter.1 haf with ⟨_, hd2⟩
    rw [decide_eq_true_eq] at hd2
    exact hd2 ha
  intro c hc
  have hmerge : rrfMerge vr kr k
      = ssort (fun a b => decide (b.rrf_score ≤ a.rrf_score)) (A.1.map (fun p =>
        match dFind A.2 p.1 with
        | some c2 => RetrievedChunk.mk c2.chunk_id c2.document c2.metadata
            c2.vector_score c2.keyword_score p.2 c2.match_highlights
        | none => RetrievedChunk.mk p.1 "" "" 0 0 p.2 [])) := by
    simp only [rrfMerge]
    rw [hph1]
    rw [show kr.enum = List.enumFrom 0 kr from rfl]
  rw [hmerge] at hc
  rcases List.mem_map.1 (mem_ssort.1 hc) with ⟨p, hpA, hpc⟩
  have hpkey : p.1 ∈ keysOf A.1 := List.mem_map_of_mem Prod.fst hpA
  have hpfind : dFind A.1 p.1 = some p.2 := by
    apply entry_of_nodup hAnodup
    rwa [Prod.mk.eta]
  have hvidx : ∀ {cid : String}, cid ∈ vr.map RetrievedChunk.chunk_id →
      ∃ i, ∃ hi : i < vr.length, (vr.get ⟨i, hi⟩).chunk_id = cid := by
    intro cid hcid
    rcases List.mem_map.1 hcid with ⟨vc, hvc, hvcid⟩
    rcases List.mem_iff_get.1 hvc with ⟨⟨i, hi⟩, hget⟩
    exact ⟨i, hi, by rw [hget]; exact hvcid⟩
  have hkidx : ∀ {cid : String}, cid ∈ kr.map RetrievedChunk.chunk_id →
      ∃ j, ∃ hj : j < kr.length, (kr.get ⟨j, hj⟩).chunk_id = cid := by
    intro cid hcid
    rcases List.mem_map.1 hcid with ⟨kc, hkc, hkcid⟩
    rcases List.mem_iff_get.1 hkc with ⟨⟨j, hj⟩, hget⟩
    exact ⟨j, hj, by rw [hget]; exact hkcid⟩
  rw [hkeysA, List.mem_append] at hpkey
  by_cases hvm : p.1 ∈ vr.map RetrievedChunk.chunk_id
  · obtain ⟨i, hi, hieq⟩ := hvidx hvm
    have hSid : dFind vrS p.1 = some (1 / (k + (i + 1 : ℕ))) := by
      rw [← hieq]
      exact hSi i hi
    have hMid : dFind vrM p.1 = some (vr.get ⟨i, hi⟩) := by
      rw [← hieq]
      exact hMi i hi
    by_cases hkm : p.1 ∈ kr.map RetrievedChunk.chunk_id
    · -- present in both lists
      obtain ⟨j, hj, hjeq⟩ := hkidx hkm
      obtain ⟨pb1, pb2⟩ := pb j hj
      rw [hjeq] at pb1 pb2
      have hgq : dGetQ vrS p.1 = 1 / (k + (i + 1 : ℕ)) := by
        unfold dGetQ
        rw [hSid]
        rfl
      rw [hgq] at pb1
      have hval : p.2 = 1 / (k + (i + 1 : ℕ)) + 1 / (k + (0 + j + 1 : ℕ)) :=
        Option.some.inj (hpfind.symm.trans pb1)
      rw [hMid] at pb2
      have hA2 : dFind A.2 p.1
          = some (mergeKw (vr.get ⟨i, hi⟩) (kr.get ⟨j, hj⟩)) := pb2
      have hcval : c = RetrievedChunk.mk (vr.get ⟨i, hi⟩).chunk_id
          (vr.get ⟨i, hi⟩).document (vr.get ⟨i, hi⟩).metadata
          (vr.get ⟨i, hi⟩).vector_score (kr.get ⟨j, hj⟩).keyword_score p.2
          (kr.get ⟨j, hj⟩).match_highlights := by
        rw [← hpc, hA2]
        rfl
      have hcid : c.chunk_id = p.1 := by
        rw [hcval]
        exact hieq
      refine ⟨?_, Or.inl (by rw [hcid]; exact hvm), ?_⟩
      · have h1 : rrfTermSpec k vr c.chunk_id = 1 / (k + (i + 1 : ℕ)) := by
          rw [hcid, ← hieq]
          exact rrfTermSpec_get k vr hv i hi
        have h2 : rrfTermSpec k kr c.chunk_id = 1 / (k + (j + 1 : ℕ)) := by
          rw [hcid, ← hjeq]
          exact rrfTermSpec_get k kr hk j hj
        rw [h1, h2, hcval]
        show p.2 = _
        rw [hval]
        norm_num
      · intro vc hvc hvcid
        have hvceq : vc = vr.get ⟨i, hi⟩ :=
          List.inj_on_of_nodup_map hv hvc (List.get_mem vr i hi)
            (by rw [hvcid, hcid, ← hieq])
        refine ⟨by rw [hcval, hvceq], by rw [hcval, hvceq],
          by rw [hcval, hvceq], ?_⟩
        intro kc hkc hkcid
        have hkceq : kc = kr.get ⟨j, hj⟩ :=
          List.inj_on_of_nodup_map hk hkc (List.get_mem kr j hj)
            (by rw [hkcid, hcid, ← hjeq])
        exact ⟨by rw [hcval, hkceq], by rw [hcval, hkceq]⟩
    · -- present only in the vector list
      obtain ⟨pa1, pa2⟩ := pa p.1 hkm
      have hval : p.2 = 1 / (k + (i + 1 : ℕ)) :=
        Option.some.inj (hpfind.symm.trans (pa1.trans hSid))
      have hA2 : dFind A.2 p.1 = some (vr.get ⟨i, hi⟩) := pa2.trans hMid
      have hcval : c = RetrievedChunk.mk (vr.get ⟨i, hi⟩).chunk_id
          (vr.get ⟨i, hi⟩).document (vr.get ⟨i, hi⟩).metadata
          (vr.get ⟨i, hi⟩).vector_score (vr.get ⟨i, hi⟩).keyword_score p.2
          (vr.get ⟨i, hi⟩).match_highlights := by
        rw [← hpc, hA2]
      have hcid : c.chunk_id = p.1 := by
        rw [hcval]
        exact hieq
      refine ⟨?_, Or.inl (by rw [hcid]; exact hvm), ?_⟩
      · have h1 : rrfTermSpec k vr c.chunk_id = 1 / (k + (i + 1 : ℕ)) := by
          rw [hcid, ← hieq]
          exact rrfTermSpec_get k vr hv i hi
        have h2 : rrfTermSpec k kr c.chunk_id = 0 := by
          rw [hcid]
          exact rrfTermSpec_not_mem k kr p.1 hkm
        rw [h1, h2, hcval]
        show p.2 = _
        rw [hval, add_zero]
      · intro vc hvc hvcid
        have hvceq : vc = vr.get ⟨i, hi⟩ :=
          List.inj_on_of_nodup_map hv hvc (List.get_mem vr i hi)
            (by rw [hvcid, hcid, ← hieq])
        refine ⟨by rw [hcval, hvceq], by rw [hcval, hvceq],
          by rw [hcval, hvceq], ?_⟩
        intro kc hkc hkcid
        exfalso
        have hmm := List.mem_map_of_mem RetrievedChunk.chunk_id hkc
        rw [hkcid, hcid] at hmm
        exact hkm hmm
  · -- present only in the keyword list
    have hkm : p.1 ∈ kr.map RetrievedChunk.chunk_id := by
      rcases hpkey with h | h
      · exact absurd h hvm
      · exact (List.mem_filter.1 h).1
    obtain ⟨j, hj, hjeq⟩ := hkidx hkm
    obtain ⟨pb1, pb2⟩ := pb j hj
    rw [hjeq] at pb1 pb2
    have hgq : dGetQ vrS p.1 = 0 := by
      unfold dGetQ
      rw [hSnone p.1 hvm]
      rfl
    rw [hgq] at pb1
    have hval : p.2 = 0 + 1 / (k + (0 + j + 1 : ℕ)) :=
      Option.some.inj (hpfind.symm.trans pb1)
    rw [hMnone p.1 hvm] at pb2
    have hA2 : dFind A.2 p.1 = some (kr.get ⟨j, hj⟩) := pb2
    have hcval : c = RetrievedChunk.mk (kr.get ⟨j, hj⟩).chunk_id
        (kr.get ⟨j, hj⟩).document (kr.get ⟨j, hj⟩).metadata
        (kr.get ⟨j, hj⟩).vector_score (kr.get ⟨j, hj⟩).keyword_score p.2
        (kr.get ⟨j, hj⟩).match_highlights := by
      rw [← hpc, hA2]
    have hcid : c.chunk_id = p.1 := by
      rw [hcval]
      exact hjeq
    refine ⟨?_, Or.inr (by rw [hcid]; exact hkm), ?_⟩
    · have h1 : rrfTermSpec k vr c.chunk_id = 0 := by
        rw [hcid]
        exact rrfTermSpec_not_mem k vr p.1 hvm
      have h2 : rrfTermSpec k kr c.chunk_id = 1 / (k + (j + 1 : ℕ)) := by
        rw [hcid, ← hjeq]
        exact rrfTermSpec_get k kr hk j hj
      rw [h1, h2, hcval]
      show p.2 = _
      rw [hval]
      norm_num
    · intro vc hvc hvcid
      exfalso
      have hmm := List.mem_map_of_mem RetrievedChunk.chunk_id hvc
      rw [hvcid, hcid] at hmm
      exact hvm hmm

/-- C1: when both retrieval channels are non-empty, every chunk returned
by `hybrid_retrieve` carries as `rrf_score` the sum of its `1/(60 + rank)`
contributions over the two ranked lists it appears in (1-based ranks); a
chunk present in both lists scores strictly more than either single
`1/(60 + rank)` term, and it keeps the vector chunk's document, metadata
and vector score while receiving the keyword chunk's keyword score and
highlights. -/
theorem rrf_fusion_c1 (rt : ℚ → ℚ) (re : ReModule) (store : List Row)
    (record_id query : String) (q_emb : List ℚ)
    (decrypted : List (String × String × String)) (top_k : ℕ) (vtk0 : Option ℕ)
    (hstore : (store.map Row.id).Nodup)
    (hdec : (decrypted.map (fun e => e.1)).Nodup)
    (hkr : keywordRanked re (buildRegexPatterns re (extractQueryTerms re query).1
        (extractQueryTerms re query).2) decrypted (resolveVtk vtk0 top_k) ≠ [])
    (hvr : vectorRanked rt store record_id q_emb decrypted (resolveVtk vtk0 top_k) ≠ []) :
    ∀ c ∈ hybridRetrieve rt re store record_id query q_emb decrypted top_k vtk0,
      c.rrf_score
        = rrfTermSpec 60 (vectorRanked rt store record_id q_emb decrypted
            (resolveVtk vtk0 top_k)) c.chunk_id
          + rrfTermSpec 60 (keywordRanked re (buildRegexPatterns re
              (extractQueryTerms re query).1 (extractQueryTerms re query).2)
              decrypted (resolveVtk vtk0 top_k)) c.chunk_id
      ∧ (c.chunk_id ∈ (vectorRanked rt store record_id q_emb decrypted
            (resolveVtk vtk0 top_k)).map RetrievedChunk.chunk_id →
         c.chunk_id ∈ (keywordRanked re (buildRegexPatterns re
              (extractQueryTerms re query).1 (extractQueryTerms re query).2)
              decrypted (resolveVtk vtk0 top_k)).map RetrievedChunk.chunk_id →
           rrfTermSpec 60 (vectorRanked rt store record_id q_emb decrypted
              (resolveVtk vtk0 top_k)) c.chunk_id < c.rrf_score
           ∧ rrfTermSpec 60 (keywordRanked re (buildRegexPatterns re
              (extractQueryTerms re query).1 (extractQueryTerms re query).2)
              decrypted (resolveVtk vtk0 top_k)) c.chunk_id < c.rrf_score)
      ∧ (∀ vc ∈ vectorRanked rt store record_id q_emb decrypted
            (resolveVtk vtk0 top_k), vc.chunk_id = c.chunk_id →
          c.document = vc.document ∧ c.metadata = vc.metadata
          ∧ c.vector_score = vc.vector_score
          ∧ ∀ kc ∈ keywordRanked re (buildRegexPatterns re
              (extractQueryTerms re query).1 (extractQueryTerms re query).2)
              decrypted (resolveVtk vtk0 top_k), kc.chunk_id = c.chunk_id →
              c.keyword_score = kc.keyword_score
              ∧ c.match_highlights = kc.match_highlights) := by
  intro c hc
  have hout : hybridRetrieve rt re store record_id query q_emb decrypted top_k vtk0
      = (rrfMerge (vectorRanked rt store record_id q_emb decrypted
          (resolveVtk vtk0 top_k))
         (keywordRanked re (buildRegexPatterns re (extractQueryTerms re query).1
            (extractQueryTerms re query).2) decrypted (resolveVtk vtk0 top_k))
         60).take top_k := by
    simp only [hybridRetrieve]
    rw [if_neg hkr, if_neg hvr]
  rw [hout] at hc
  have hc2 := (List.take_subset _ _) hc
  have hnv := vectorRanked_ids_nodup rt store record_id q_emb decrypted
    (resolveVtk vtk0 top_k) hstore
  have hnk := keywordRanked_ids_nodup re (buildRegexPatterns re
    (extractQueryTerms re query).1 (extractQueryTerms re query).2) decrypted
    (resolveVtk vtk0 top_k) hdec
  obtain ⟨h1, _, h3⟩ := rrfMerge_spec _ _ 60 hnv hnk c hc2
  refine ⟨h1, ?_, h3⟩
  intro hvm hkm
  have hvp := rrfTermSpec_pos 60 (by norm_num) _ c.chunk_id hvm
  have hkp := rrfTermSpec_pos 60 (by norm_num) _ c.chunk_id hkm
  constructor
  · rw [h1]
    linarith
  · rw [h1]
    linarith

/-- A regex engine reporting one match per pattern, for the witness. -/
def hitRe : ReModule where
  findallQuoted _ := []
  subQuoted s := s
  findallWords _ := ["hello"]
  compileOk _ := true
  findallCount _ _ := 1
  searchSpan _ _ := none

theorem hitRe_pats : buildRegexPatterns hitRe (extractQueryTerms hitRe "hello").1
    (extractQueryTerms hitRe "hello").2 = [("hello", 1 / 2)] := rfl

theorem hitRe_score : (scoreChunkRegex hitRe "hello" [("hello", 1 / 2)]).1 = 1 / 3 := by
  unfold scoreChunkRegex
  rw [if_neg (by simp)]
  simp only [List.foldl_cons, List.foldl_nil, hitRe]
  norm_num

/-- Witness for C1: one stored vector row and one keyword-matching
decrypted chunk, with the same id, fused by RRF. -/
theorem rrf_fusion_c1_witness :
    ([Row.mk "c1" "A" [1] "stored" "m"].map Row.id).Nodup
    ∧ ([("c1", "hello", "meta")].map
        (fun e : String × String × String => e.1)).Nodup
    ∧ keywordRanked hitRe (buildRegexPatterns hitRe
        (extractQueryTerms hitRe "hello").1 (extractQueryTerms hitRe "hello").2)
        [("c1", "hello", "meta")] (resolveVtk none 5) ≠ []
    ∧ vectorRanked (fun q : ℚ => q) [Row.mk "c1" "A" [1] "stored" "m"] "A" [1]
        [("c1", "hello", "meta")] (resolveVtk none 5) ≠ []
    ∧ ∀ c ∈ hybridRetrieve (fun q : ℚ => q) hitRe [Row.mk "c1" "A" [1] "stored" "m"]
          "A" "hello" [1] [("c1", "hello", "meta")] 5 none,
        c.rrf_score
          = rrfTermSpec 60 (vectorRanked (fun q : ℚ => q)
              [Row.mk "c1" "A" [1] "stored" "m"] "A" [1]
              [("c1", "hello", "meta")] (resolveVtk none 5)) c.chunk_id
            + rrfTermSpec 60 (keywordRanked hitRe (buildRegexPatterns hitRe
                (extractQueryTerms hitRe "hello").1 (extractQueryTerms hitRe "hello").2)
                [("c1", "hello", "meta")] (resolveVtk none 5)) c.chunk_id
        ∧ (c.chunk_id ∈ (vectorRanked (fun q : ℚ => q)
              [Row.mk "c1" "A" [1] "stored" "m"] "A" [1]
              [("c1", "hello", "meta")] (resolveVtk none 5)).map RetrievedChunk.chunk_id →
           c.chunk_id ∈ (keywordRanked hitRe (buildRegexPatterns hitRe
                (extractQueryTerms hitRe "hello").1 (extractQueryTerms hitRe "hello").2)
                [("c1", "hello", "meta")] (resolveVtk none 5)).map RetrievedChunk.chunk_id →
             rrfTermSpec 60 (vectorRanked (fun q : ℚ => q)
                [Row.mk "c1" "A" [1] "stored" "m"] "A" [1]
                [("c1", "hello", "meta")] (resolveVtk none 5)) c.chunk_id < c.rrf_score
             ∧ rrfTermSpec 60 (keywordRanked hitRe (buildRegexPatterns hitRe
                (extractQueryTerms hitRe "hello").1 (extractQueryTerms hitRe "hello").2)
                [("c1", "hello", "meta")] (resolveVtk none 5)) c.chunk_id < c.rrf_score)
        ∧ (∀ vc ∈ vectorRanked (fun q : ℚ => q)
              [Row.mk "c1" "A" [1] "stored" "m"] "A" [1]
              [("c1", "hello", "meta")] (resolveVtk none 5), vc.chunk_id = c.chunk_id →
            c.document = vc.document ∧ c.metadata = vc.metadata
            ∧ c.vector_score = vc.vector_score
            ∧ ∀ kc ∈ keywordRanked hitRe (buildRegexPatterns hitRe
                (extractQueryTerms hitRe "hello").1 (extractQueryTerms hitRe "hello").2)
                [("c1", "hello", "meta")] (resolveVtk none 5), kc.chunk_id = c.chunk_id →
                c.keyword_score = kc.keyword_score
                ∧ c.match_highlights = kc.match_highlights) := by
  have hpos : (scoreChunkRegex hitRe "hello" [("hello", 1 / 2)]).1 > 0 := by
    rw [hitRe_score]
    norm_num
  have hkrne : keywordRanked hitRe (buildRegexPatterns hitRe
      (extractQueryTerms hitRe "hello").1 (extractQueryTerms hitRe "hello").2)
      [("c1", "hello", "meta")] (resolveVtk none 5) ≠ [] := by
    rw [hitRe_pats]
    unfold keywordRanked
    rw [if_neg (by simp)]
    simp only [List.filterMap_cons, List.filterMap_nil]
    rw [if_pos hpos]
    simp [ssort, sinsert, resolveVtk]
  have hlen : (vectorRanked (fun q : ℚ => q) [Row.mk "c1" "A" [1] "stored" "m"]
      "A" [1] [("c1", "hello", "meta")] (resolveVtk none 5)).length = 1 := by
    unfold vectorRanked
    rw [List.length_map, queryVectors_length]
    have hf : ([Row.mk "c1" "A" [1] "stored" "m"]).filter
        (fun r => r.record_id == "A") = [Row.mk "c1" "A" [1] "stored" "m"] := by
      decide
    rw [hf]
    simp [resolveVtk]
  have hvrne : vectorRanked (fun q : ℚ => q) [Row.mk "c1" "A" [1] "stored" "m"]
      "A" [1] [("c1", "hello", "meta")] (resolveVtk none 5) ≠ [] := by
    intro hnil
    rw [hnil] at hlen
    simp at hlen
  exact ⟨by decide, by decide, hkrne, hvrne,
    rrf_fusion_c1 (fun q : ℚ => q) hitRe [Row.mk "c1" "A" [1] "stored" "m"]
      "A" "hello" [1] [("c1", "hello", "meta")] 5 none
      (by decide) (by decide) hkrne hvrne⟩

end OpenRecords
